import Mathlib

/-!
Shallow embedding of the JinPress static-site generator (Python) together with
proofs about the behaviour its specification claims.

Conventions of the embedding:
* Python strings are modelled as `List Char`; Python string methods
  (`startswith`, `endswith`, `rsplit`, `strip`, slicing) are modelled by the
  `py…` helpers below, each translated from the CPython semantics used by the
  source.
* Python floats that only ever hold timestamps are modelled as `ℚ`.
* External collaborators that the source calls (the YAML parser, the template
  renderer) are passed in as explicit parameters.
-/

namespace JinPress

/-- Python `s[:-n]` for `n ≥ 1`: drop the last `n` characters (the result is
empty when `n ≥ len(s)`, exactly as in Python). -/
def pyDropRight (n : Nat) (s : List Char) : List Char := s.take (s.length - n)

/-- Python `s.rstrip(c)`: remove every trailing occurrence of the character `c`. -/
def pyRstripChar (c : Char) (s : List Char) : List Char :=
  (s.reverse.dropWhile (· == c)).reverse

/-- Python `s.strip(c)`: remove every leading and trailing occurrence of `c`. -/
def pyStripChar (c : Char) (s : List Char) : List Char :=
  ((s.dropWhile (· == c)).reverse.dropWhile (· == c)).reverse

/-- The characters matched by the regex class `\s` (and stripped by `strip()`)
on ASCII text: space, tab, newline, carriage return, vertical tab, form feed. -/
def isPySpace (c : Char) : Bool :=
  c == ' ' || c == '\t' || c == '\n' || c == '\x0d' || c == '\x0b' || c == '\x0c'

/-- Python `s.strip()` (no argument) on ASCII text. -/
def pyTrim (s : List Char) : List Char :=
  ((s.dropWhile isPySpace).reverse.dropWhile isPySpace).reverse

/-- Searches downward from position `i` for the start of the last occurrence of
`sep` in `s`; at position `0` the Python contract of `rsplit` applies: with no
occurrence at all the whole string is the (single) piece. -/
def rsplitLastAux (s sep : List Char) : Nat → List Char
  | 0 => if sep.isPrefixOf s then [] else s
  | i + 1 => if sep.isPrefixOf (s.drop (i + 1)) then s.take (i + 1) else rsplitLastAux s sep i

/-- First component of Python `s.rsplit(sep, 1)`: everything before the last
occurrence of `sep`, or all of `s` when `sep` does not occur. -/
def pyRsplit1Head (s sep : List Char) : List Char := rsplitLastAux s sep s.length

theorem rsplitLastAux_of_suffix (s sep t : List Char) (hs : s = t ++ sep) (hsep : sep ≠ []) :
    ∀ j, t.length ≤ j → rsplitLastAux s sep j = s.take t.length := by
  intro j
  induction j with
  | zero =>
    intro hj
    have ht : t = [] := List.length_eq_zero.mp (Nat.le_zero.mp hj)
    subst ht
    simp only [List.nil_append] at hs
    subst hs
    simp [rsplitLastAux, List.isPrefixOf_iff_prefix]
  | succ j ih =>
    intro hj
    rcases Nat.lt_or_ge j t.length with hlt | hge
    · -- here `t.length = j + 1`: the separator starts exactly at `j + 1`
      have hkj : t.length = j + 1 := Nat.le_antisymm hj hlt
      have hdrop : s.drop (j + 1) = sep := by
        subst hs
        rw [← hkj, List.drop_left]
      simp [rsplitLastAux, hdrop, List.isPrefixOf_iff_prefix, hkj]
    · -- `j + 1` is past the last occurrence: the remaining list is too short
      have hlen : (s.drop (j + 1)).length < sep.length := by
        have hslen : s.length = t.length + sep.length := by
          subst hs; simp
        have hpos : 0 < sep.length := List.length_pos.mpr hsep
        simp only [List.length_drop]
        omega
      have hnp : sep.isPrefixOf (s.drop (j + 1)) = false := by
        by_contra hcon
        have : sep <+: s.drop (j + 1) :=
          List.isPrefixOf_iff_prefix.mp (Bool.not_eq_false _ |>.mp hcon)
        exact absurd this.length_le (Nat.not_le.mpr hlen)
      simp only [rsplitLastAux, hnp, Bool.false_eq_true, if_false]
      exact ih hge

/-- When `sep` is a (nonempty) suffix of `s`, the last occurrence of `sep` is
that suffix, so the first `rsplit` piece is `s` without the suffix. -/
theorem pyRsplit1Head_of_suffix (s sep : List Char) (hsep : sep ≠ []) (h : sep <:+ s) :
    pyRsplit1Head s sep = pyDropRight sep.length s := by
  obtain ⟨t, ht⟩ := h
  have hlen : s.length = t.length + sep.length := by
    subst ht; simp
  have h1 : rsplitLastAux s sep s.length = s.take t.length :=
    rsplitLastAux_of_suffix s sep t ht.symm hsep s.length (by omega)
  have h2 : s.length - sep.length = t.length := by omega
  simp [pyRsplit1Head, pyDropRight, h1, h2]

/-! ### The Markdown link rewriting (`src/jinpress/markdown/processor.py`) -/

/-- `MarkdownProcessor._transform_md_link`: rewrite relative `.md` links to
clean URLs, leaving links that start with `http://`, `https://`, `mailto:`
or `#` untouched (translated from `processor.py`, lines 130–154). -/
def transformMdLink (href : List Char) : List Char :=
  if "http://".toList.isPrefixOf href || "https://".toList.isPrefixOf href
      || "mailto:".toList.isPrefixOf href || "#".toList.isPrefixOf href then
    href
  else if ".md".toList.isSuffixOf href then
    let cleanPath := pyDropRight 3 href
    let cleanPath :=
      if "/index".toList.isSuffixOf cleanPath || cleanPath == "index".toList then
        pyRsplit1Head cleanPath "index".toList
      else cleanPath
    if "/".toList.isSuffixOf cleanPath then cleanPath else cleanPath ++ ['/']
  else href

/-- Modelled from the spec: the clean-URL scheme applied to a link —
"strip the .md extension, collapse a trailing 'index' segment, ensure a
trailing slash". Stated independently of the source's `rsplit`-based code so
the two can be compared. -/
def specCleanMdLink (href : List Char) : List Char :=
  let p := pyDropRight 3 href
  let p :=
    if "/index".toList.isSuffixOf p || p == "index".toList then pyDropRight 5 p else p
  if "/".toList.isSuffixOf p then p else p ++ ['/']

/-- `MarkdownProcessor.transform_links`: scan HTML for `href="…"` attribute
values ending in `.md` (the regex `href="([^"]*\.md)"`) and rewrite each
through `_transform_md_link` (translated from `processor.py`, lines 342–359). -/
def transformLinks : List Char → List Char
  | [] => []
  | c :: cs =>
    if "href=\"".toList.isPrefixOf (c :: cs) then
      let after := (c :: cs).drop 6
      let u := after.takeWhile (· != '"')
      if u.length < after.length && ".md".toList.isSuffixOf u then
        "href=\"".toList ++ transformMdLink u ++ '"' :: transformLinks (after.drop (u.length + 1))
      else c :: transformLinks cs
    else c :: transformLinks cs
termination_by l => l.length
decreasing_by
  · simp only [List.length_drop, List.length_cons]
    omega
  · simp
  · simp

theorem takeWhile_append_cons_of_neg (p : Char → Bool) (u : List Char) (b : Char) (r : List Char)
    (hu : ∀ c ∈ u, p c = true) (hb : p b = false) :
    (u ++ b :: r).takeWhile p = u := by
  induction u with
  | nil => simp [List.takeWhile_cons, hb]
  | cons a t ih =>
    have ha := hu a (by simp)
    simp [List.takeWhile_cons, ha, ih (fun c hc => hu c (by simp [hc]))]

theorem drop_append_cons_length (u : List Char) (b : Char) (r : List Char) :
    (u ++ b :: r).drop (u.length + 1) = r := by
  rw [show u ++ b :: r = (u ++ [b]) ++ r by simp]
  rw [show u.length + 1 = (u ++ [b]).length by simp]
  exact List.drop_left _ _

/-- C4 counterexample: a protocol-relative link (`//…`) that ends in `.md` is
NOT left untouched by `_transform_md_link` — it is rewritten to a clean URL,
contradicting the claim that `//`-prefixed hrefs are returned unchanged. -/
theorem claim_C4_counterexample :
    "//".toList.isPrefixOf "//example.com/a.md".toList = true ∧
    transformMdLink "//example.com/a.md".toList ≠ "//example.com/a.md".toList ∧
    transformMdLink "//example.com/a.md".toList = "//example.com/a/".toList := by
  refine ⟨by decide, ?_, by decide⟩
  decide

/-- C4 (amended): hrefs beginning with `http://`, `https://`, `mailto:` or `#`
(but NOT protocol-relative `//` hrefs) are returned unchanged by the Markdown
pipeline's link post-processing, even if they end in `.md`; every other href
ending in `.md` is rewritten to the clean-URL scheme (strip `.md`, collapse a
trailing `index` segment, ensure a trailing slash), and hrefs not ending in
`.md` are unchanged; the HTML-level pass `transform_links` likewise leaves a
matched external `.md` href value unchanged. -/
theorem claim_C4_amended (href : List Char) :
    (("http://".toList.isPrefixOf href || "https://".toList.isPrefixOf href
        || "mailto:".toList.isPrefixOf href || "#".toList.isPrefixOf href) = true →
      transformMdLink href = href) ∧
    (("http://".toList.isPrefixOf href || "https://".toList.isPrefixOf href
        || "mailto:".toList.isPrefixOf href || "#".toList.isPrefixOf href) = false →
      ".md".toList.isSuffixOf href = true →
      transformMdLink href = specCleanMdLink href) ∧
    (("http://".toList.isPrefixOf href || "https://".toList.isPrefixOf href
        || "mailto:".toList.isPrefixOf href || "#".toList.isPrefixOf href) = false →
      ".md".toList.isSuffixOf href = false →
      transformMdLink href = href) ∧
    (∀ u rest, (∀ c ∈ u, ¬ c = '"') →
      ("http://".toList.isPrefixOf u || "https://".toList.isPrefixOf u
        || "mailto:".toList.isPrefixOf u || "#".toList.isPrefixOf u) = true →
      ".md".toList.isSuffixOf u = true →
      transformLinks ("href=\"".toList ++ (u ++ '"' :: rest)) =
        "href=\"".toList ++ (u ++ '"' :: transformLinks rest)) := by
  have ext_unchanged : ∀ v : List Char,
      ("http://".toList.isPrefixOf v || "https://".toList.isPrefixOf v
        || "mailto:".toList.isPrefixOf v || "#".toList.isPrefixOf v) = true →
      transformMdLink v = v := by
    intro v hv
    unfold transformMdLink
    rw [if_pos hv]
  refine ⟨ext_unchanged href, ?_, ?_, ?_⟩
  · intro h hmd
    have hsplit : ∀ q : List Char,
        ("/index".toList.isSuffixOf q || q == "index".toList) = true →
        pyRsplit1Head q "index".toList = pyDropRight 5 q := by
      intro q hq
      have hsuf : "index".toList <:+ q := by
        rcases Bool.or_eq_true _ _ |>.mp hq with h1 | h1
        · exact List.IsSuffix.trans ⟨['/'], rfl⟩ (List.isSuffixOf_iff_suffix.mp h1)
        · have hqe : q = "index".toList := by simpa using h1
          exact hqe ▸ List.suffix_refl _
      have hlen : ("index".toList).length = 5 := by decide
      have := pyRsplit1Head_of_suffix q "index".toList (by decide) hsuf
      rwa [hlen] at this
    unfold transformMdLink specCleanMdLink
    rw [h, hmd]
    simp only [Bool.false_eq_true, if_false, if_true]
    cases hc : ("/index".toList.isSuffixOf (pyDropRight 3 href)
        || pyDropRight 3 href == "index".toList) with
    | false => simp only [Bool.false_eq_true, if_false]
    | true =>
      simp only [eq_self_iff_true, if_true]
      rw [hsplit _ hc]
  · intro h hmd
    unfold transformMdLink
    rw [h, hmd]
    simp only [Bool.false_eq_true, if_false]
  · intro u rest hq hext hmd
    have hcons : "href=\"".toList ++ (u ++ '"' :: rest) =
        'h' :: 'r' :: 'e' :: 'f' :: '=' :: '"' :: (u ++ '"' :: rest) := rfl
    have htw : (u ++ '"' :: rest).takeWhile (· != '"') = u :=
      takeWhile_append_cons_of_neg _ u '"' rest
        (fun c hc => by simp [bne_iff_ne, hq c hc]) (by decide)
    have hpre : "href=\"".toList.isPrefixOf
        ('h' :: 'r' :: 'e' :: 'f' :: '=' :: '"' :: (u ++ '"' :: rest)) = true := by
      rw [show "href=\"".toList = ['h', 'r', 'e', 'f', '=', '"'] from by decide]
      simp [List.isPrefixOf]
    rw [hcons, transformLinks, if_pos hpre]
    simp only [show ('h' :: 'r' :: 'e' :: 'f' :: '=' :: '"' :: (u ++ '"' :: rest)).drop 6 =
      u ++ '"' :: rest from rfl, htw]
    have hcond : (decide (u.length < (u ++ '"' :: rest).length)
        && ".md".toList.isSuffixOf u) = true := by
      rw [Bool.and_eq_true]
      refine ⟨decide_eq_true ?_, hmd⟩
      simp only [List.length_append, List.length_cons]
      omega
    rw [if_pos hcond, drop_append_cons_length u '"' rest, ext_unchanged u hext]
    simp

/-- C4 witness: the amended theorem applied at concrete inputs — an external
`https` link ending in `.md` is unchanged, a relative `index.md` link is
rewritten per the clean-URL scheme, and the HTML-level pass leaves an external
`.md` href untouched. -/
theorem claim_C4_witness :
    transformMdLink "https://e.com/a.md".toList = "https://e.com/a.md".toList ∧
    transformMdLink "guide/index.md".toList = specCleanMdLink "guide/index.md".toList ∧
    transformLinks ("href=\"".toList ++ ("https://e.com/a.md".toList ++ '"' :: "x".toList)) =
      "href=\"".toList ++ ("https://e.com/a.md".toList ++ '"' :: transformLinks "x".toList) := by
  exact ⟨(claim_C4_amended _).1 (by decide),
    (claim_C4_amended "guide/index.md".toList).2.1 (by decide) (by decide),
    (claim_C4_amended []).2.2.2 "https://e.com/a.md".toList "x".toList (by decide)
      (by decide) (by decide)⟩

/-! ### The dev-server live-reload check endpoint (`src/jinpress/server.py`) -/

/-- Python `s.split(sep)` for a one-character separator. -/
def pySplitChar (sep : Char) : List Char → List (List Char)
  | [] => [[]]
  | c :: cs =>
    if c == sep then [] :: pySplitChar sep cs
    else
      match pySplitChar sep cs with
      | [] => [[c]]
      | h :: t => (c :: h) :: t

/-- Numeric value of a list of decimal digit characters. -/
def digitsVal (ds : List Char) : Nat := ds.foldl (fun a c => a * 10 + (c.toNat - 48)) 0

/-- Exponent part of a Python float literal (`e`/`E`, optional sign, digits);
an empty remainder means the mantissa alone was the whole literal. -/
def parsePyExp (m : ℚ) : List Char → Option ℚ
  | [] => some m
  | c :: r =>
    if c == 'e' || c == 'E' then
      let sd : Bool × List Char :=
        match r with
        | '+' :: r2 => (true, r2)
        | '-' :: r2 => (false, r2)
        | _ => (true, r)
      if sd.2.isEmpty then none
      else if sd.2.all Char.isDigit then
        some (if sd.1 then m * 10 ^ digitsVal sd.2 else m / 10 ^ digitsVal sd.2)
      else none
    else none

/-- Unsigned part of a Python float literal: digits, optional `.digits`,
optional exponent; at least one digit must be present. -/
def parsePyUnsigned (t : List Char) : Option ℚ :=
  let ip := t.takeWhile Char.isDigit
  let r1 := t.drop ip.length
  match r1 with
  | '.' :: r2 =>
    let fp := r2.takeWhile Char.isDigit
    let r3 := r2.drop fp.length
    if ip.isEmpty && fp.isEmpty then none
    else parsePyExp ((digitsVal ip : ℚ) + (digitsVal fp : ℚ) / 10 ^ fp.length) r3
  | _ => if ip.isEmpty then none else parsePyExp (digitsVal ip) r1

/-- Python `float(s)` on finite decimal literals, as an exact rational
(`ValueError` is `none`); the special floats `inf`/`nan` and `_` digit
grouping have no counterpart in this rational model. -/
def parsePyFloat (s : List Char) : Option ℚ :=
  let t := pyTrim s
  if t.head? == some '+' then parsePyUnsigned t.tail
  else if t.head? == some '-' then (parsePyUnsigned t.tail).map (fun q => -q)
  else parsePyUnsigned t

/-- Python `int(q)`: truncation toward zero (for a rational, its numerator
divided by its denominator with `Int` T-division). -/
def pyInt (q : ℚ) : ℤ := q.num.tdiv q.den

/-- The JSON body and response metadata produced by
`DevServerHTTPHandler._handle_livereload_check`. -/
structure CheckResponse where
  status : Nat
  contentType : List Char
  reload : Bool
  timestamp : ℤ
deriving DecidableEq

/-- `DevServerHTTPHandler._handle_livereload_check` (`server.py`, lines
186–210): parse the `t` query parameter (defaulting to `0`, ignoring parse
failures, a later `t` parameter overriding an earlier one), compare the shared
last-rebuild timestamp against `t / 1000`, and answer `200` with JSON
`reload`/`timestamp` fields. -/
def handleLivereloadCheck (lastRebuildTime now : ℚ) (path : List Char) : CheckResponse :=
  let clientTime : ℚ :=
    if '?' ∈ path then
      (pySplitChar '&' ((pySplitChar '?' path).getD 1 [])).foldl
        (fun acc p =>
          if "t=".toList.isPrefixOf p then
            match parsePyFloat (p.drop 2) with
            | some v => v
            | none => acc
          else acc) 0
    else 0
  { status := 200
    contentType := "application/json".toList
    reload := decide (lastRebuildTime > clientTime / 1000)
    timestamp := pyInt (now * 1000) }

/-- Outcome of `DevServerHTTPHandler.do_GET`: either the live-reload check
response or static file serving for every other path. -/
inductive GetResult where
  | livereload (r : CheckResponse)
  | static (path : List Char)
deriving DecidableEq

/-- `DevServerHTTPHandler.do_GET` (`server.py`, lines 179–184). -/
def doGet (lastRebuildTime now : ℚ) (path : List Char) : GetResult :=
  if "/__livereload__/check".toList.isPrefixOf path then
    GetResult.livereload (handleLivereloadCheck lastRebuildTime now path)
  else GetResult.static path

theorem pySplitChar_of_not_mem (sep : Char) (b : List Char) (hb : sep ∉ b) :
    pySplitChar sep b = [b] := by
  induction b with
  | nil => rfl
  | cons c cs ih =>
    have hc : (c == sep) = false :=
      beq_eq_false_iff_ne.mpr (fun h => hb (h ▸ List.mem_cons_self _ _))
    have ih2 := ih (fun h => hb (List.mem_cons_of_mem _ h))
    simp only [pySplitChar, hc, Bool.false_eq_true, if_false, ih2]

theorem pySplitChar_append_sep (sep : Char) (a b : List Char) (ha : sep ∉ a) (hb : sep ∉ b) :
    pySplitChar sep (a ++ sep :: b) = [a, b] := by
  induction a with
  | nil =>
    simp only [List.nil_append, pySplitChar, beq_self_eq_true, if_true,
      pySplitChar_of_not_mem sep b hb]
  | cons a0 a' ih =>
    have ha0 : (a0 == sep) = false :=
      beq_eq_false_iff_ne.mpr (fun h => ha (h ▸ List.mem_cons_self _ _))
    have ih2 := ih (fun h => ha (List.mem_cons_of_mem _ h))
    simp only [List.cons_append, pySplitChar, ha0, Bool.false_eq_true, if_false,
      List.append_eq, ih2]

theorem takeWhile_eq_self_of_all (p : Char → Bool) (l : List Char)
    (h : ∀ c ∈ l, p c = true) : l.takeWhile p = l := by
  induction l with
  | nil => rfl
  | cons c cs ih =>
    simp only [List.takeWhile_cons, h c (List.mem_cons_self _ _), if_true]
    rw [ih (fun d hd => h d (List.mem_cons_of_mem _ hd))]

theorem dropWhile_eq_self_of_none (p : Char → Bool) (l : List Char)
    (h : ∀ c ∈ l, p c = false) : l.dropWhile p = l := by
  cases l with
  | nil => rfl
  | cons c cs => simp [List.dropWhile_cons, h c (List.mem_cons_self _ _)]

theorem pyTrim_eq_self_of_no_space (l : List Char) (h : ∀ c ∈ l, isPySpace c = false) :
    pyTrim l = l := by
  unfold pyTrim
  rw [dropWhile_eq_self_of_none _ l h,
    dropWhile_eq_self_of_none _ l.reverse (fun c hc => h c (List.mem_reverse.mp hc)),
    List.reverse_reverse]

theorem digit_not_space (c : Char) (h : c.isDigit = true) : isPySpace c = false := by
  revert h
  unfold Char.isDigit isPySpace
  intro h
  rcases Bool.and_eq_true _ _ |>.mp h with ⟨h1, h2⟩
  have h1' := decide_eq_true_eq.mp h1
  have h2' := decide_eq_true_eq.mp h2
  simp only [Bool.or_eq_false_iff]
  refine ⟨⟨⟨⟨⟨?_, ?_⟩, ?_⟩, ?_⟩, ?_⟩, ?_⟩ <;>
    · rw [beq_eq_false_iff_ne]
      intro he
      subst he
      revert h1' h2'
      decide

/-- On a nonempty all-digit string, the modelled `float()` returns exactly the
digits' value. -/
theorem parsePyFloat_digits (ds : List Char) (hne : ds ≠ [])
    (hdig : ∀ c ∈ ds, c.isDigit = true) :
    parsePyFloat ds = some ((digitsVal ds : ℚ)) := by
  obtain ⟨d, ds', rfl⟩ := List.exists_cons_of_ne_nil hne
  have htrim : pyTrim (d :: ds') = d :: ds' :=
    pyTrim_eq_self_of_no_space _ (fun c hc => digit_not_space c (hdig c hc))
  have hd := hdig d (List.mem_cons_self _ _)
  have hplus : ((d :: ds').head? == some '+') = false := by
    simp only [List.head?_cons]
    rw [beq_eq_false_iff_ne]
    intro he
    rw [Option.some_inj] at he
    subst he
    revert hd
    decide
  have hminus : ((d :: ds').head? == some '-') = false := by
    simp only [List.head?_cons]
    rw [beq_eq_false_iff_ne]
    intro he
    rw [Option.some_inj] at he
    subst he
    revert hd
    decide
  unfold parsePyFloat
  simp only [htrim, hplus, hminus, Bool.false_eq_true, if_false]
  unfold parsePyUnsigned
  have htake : (d :: ds').takeWhile Char.isDigit = d :: ds' :=
    takeWhile_eq_self_of_all _ _ hdig
  simp only [htake, List.drop_length, List.isEmpty_cons]
  rfl

theorem foldl_clientTime_zero (ps : List (List Char))
    (h : ∀ p ∈ ps, "t=".toList.isPrefixOf p = true → parsePyFloat (p.drop 2) = none) :
    ps.foldl
      (fun (acc : ℚ) p =>
        if "t=".toList.isPrefixOf p then
          match parsePyFloat (p.drop 2) with
          | some v => v
          | none => acc
        else acc) 0 = 0 := by
  have hgen : ∀ (l : List (List Char)) (acc : ℚ),
      (∀ p ∈ l, "t=".toList.isPrefixOf p = true → parsePyFloat (p.drop 2) = none) →
      l.foldl
        (fun (acc : ℚ) p =>
          if "t=".toList.isPrefixOf p then
            match parsePyFloat (p.drop 2) with
            | some v => v
            | none => acc
          else acc) acc = acc := by
    intro l
    induction l with
    | nil => intro acc _; rfl
    | cons p t ih =>
      intro acc hl
      simp only [List.foldl_cons]
      have hstep : (if "t=".toList.isPrefixOf p then
          match parsePyFloat (p.drop 2) with
          | some v => v
          | none => acc
          else acc) = acc := by
        cases hpre : "t=".toList.isPrefixOf p with
        | false => simp
        | true =>
          rw [if_pos rfl, hl p (List.mem_cons_self _ _) hpre]
      rw [hstep]
      exact ih acc (fun q hq => hl q (List.mem_cons_of_mem _ hq))
  exact hgen ps 0 h

/-- C7: a GET request to `/__livereload__/check` whose query carries a
well-formed (all-digit) millisecond timestamp `t` is answered with status 200
and JSON fields `reload` — true exactly when the shared last-rebuild timestamp
strictly exceeds `t / 1000`, the client value converted to seconds — and
`timestamp`, the server's current time in milliseconds. -/
theorem claim_C7 (last now : ℚ) (ds : List Char) (hne : ds ≠ [])
    (hdig : ∀ c ∈ ds, c.isDigit = true) :
    doGet last now ("/__livereload__/check?t=".toList ++ ds) =
      GetResult.livereload
        { status := 200
          contentType := "application/json".toList
          reload := decide (last > (digitsVal ds : ℚ) / 1000)
          timestamp := pyInt (now * 1000) } := by
  have hsplit : "/__livereload__/check?t=".toList ++ ds =
      "/__livereload__/check".toList ++ '?' :: ("t=".toList ++ ds) := by
    rw [show "/__livereload__/check?t=".toList =
      "/__livereload__/check".toList ++ '?' :: "t=".toList from by decide]
    simp
  have hqa : '?' ∉ "/__livereload__/check".toList := by decide
  have hdigne : ∀ c ∈ ds, c ≠ '?' ∧ c ≠ '&' := by
    intro c hc
    have := hdig c hc
    constructor <;> (intro he; subst he; revert this; decide)
  have hqb : '?' ∉ "t=".toList ++ ds := by
    intro hmem
    rcases List.mem_append.mp hmem with h1 | h1
    · revert h1; decide
    · exact (hdigne _ h1).1 rfl
  have hamp : '&' ∉ "t=".toList ++ ds := by
    intro hmem
    rcases List.mem_append.mp hmem with h1 | h1
    · revert h1; decide
    · exact (hdigne _ h1).2 rfl
  have hpre : "/__livereload__/check".toList.isPrefixOf
      ("/__livereload__/check?t=".toList ++ ds) = true := by
    rw [hsplit]
    exact List.isPrefixOf_iff_prefix.mpr (List.prefix_append _ _)
  unfold doGet
  rw [if_pos hpre]
  unfold handleLivereloadCheck
  have hqmem : '?' ∈ "/__livereload__/check?t=".toList ++ ds := by
    apply List.mem_append.mpr
    left
    decide
  rw [if_pos hqmem]
  rw [hsplit, pySplitChar_append_sep '?' _ _ hqa hqb]
  rw [show (["/__livereload__/check".toList, "t=".toList ++ ds]).getD 1 [] =
    "t=".toList ++ ds from rfl]
  rw [pySplitChar_of_not_mem '&' _ hamp]
  simp only [List.foldl_cons, List.foldl_nil]
  have hpret : "t=".toList.isPrefixOf ("t=".toList ++ ds) = true :=
    List.isPrefixOf_iff_prefix.mpr (List.prefix_append _ _)
  simp only [hpret, eq_self_iff_true, if_true,
    show ("t=".toList ++ ds).drop 2 = ds from rfl, parsePyFloat_digits ds hne hdig]

/-- C7 witness: the theorem applied at `t=1500` with last-rebuild time 2s and
current time 3s — `1.5 < 2` so `reload` is true and the timestamp is 3000ms. -/
theorem claim_C7_witness :
    doGet 2 3 ("/__livereload__/check?t=".toList ++ "1500".toList) =
      GetResult.livereload
        { status := 200
          contentType := "application/json".toList
          reload := true
          timestamp := 3000 } := by
  have h := claim_C7 2 3 "1500".toList (by decide) (by decide)
  rw [h]
  rw [show digitsVal "1500".toList = 1500 from by decide]
  rw [decide_eq_true (show (2 : ℚ) > ((1500 : ℕ) : ℚ) / 1000 by norm_num)]
  rw [show pyInt ((3 : ℚ) * 1000) = 3000 from by
    rw [show (3 : ℚ) * 1000 = 3000 by norm_num]
    unfold pyInt
    rw [Rat.num_ofNat, Rat.den_ofNat]
    decide]

/-- C10: a GET request to `/__livereload__/check` whose query lacks a `t`
parameter or whose every `t` value fails to parse as a float is still answered:
status 200, well-formed JSON, the client timestamp treated as 0, so `reload`
is true exactly when the shared last-rebuild timestamp is positive. -/
theorem claim_C10 (last now : ℚ) (path : List Char)
    (hlr : "/__livereload__/check".toList.isPrefixOf path = true)
    (ht : ∀ p ∈ pySplitChar '&' ((pySplitChar '?' path).getD 1 []),
      "t=".toList.isPrefixOf p = true → parsePyFloat (p.drop 2) = none) :
    doGet last now path =
      GetResult.livereload
        { status := 200
          contentType := "application/json".toList
          reload := decide (last > 0)
          timestamp := pyInt (now * 1000) } := by
  unfold doGet
  rw [if_pos hlr]
  unfold handleLivereloadCheck
  have hz : (0 : ℚ) / 1000 = 0 := by norm_num
  by_cases hq : '?' ∈ path
  · rw [if_pos hq, foldl_clientTime_zero _ ht]
    simp only [hz]
  · rw [if_neg hq]
    simp only [hz]

/-- C10 witness: the theorem applied at the concrete path
`/__livereload__/check?t=abc` (non-numeric `t`) with a positive last-rebuild
timestamp. -/
theorem claim_C10_witness :
    doGet 1 0 "/__livereload__/check?t=abc".toList =
      GetResult.livereload
        { status := 200
          contentType := "application/json".toList
          reload := true
          timestamp := 0 } := by
  have h := claim_C10 1 0 "/__livereload__/check?t=abc".toList (by decide) (by decide)
  rw [h]
  rw [decide_eq_true (show (1 : ℚ) > 0 by norm_num)]
  rw [show pyInt ((0 : ℚ) * 1000) = 0 from by
    rw [show (0 : ℚ) * 1000 = 0 by norm_num]
    unfold pyInt
    rw [Rat.num_ofNat, Rat.den_ofNat]
    decide]

/-! ### File watcher and debounced rebuild (`src/jinpress/server.py`) -/

/-- `pathlib.Path.suffix` applied to a file name (the last path component):
the extension from the last `.` on, empty when the name has no internal dot
(CPython: `i = name.rfind('.'); name[i:] if 0 < i < len(name) - 1 else ''`). -/
def pathNameSuffix (name : List Char) : List Char :=
  let j := name.reverse.findIdx (· == '.')
  if j < name.length then
    let i := name.length - 1 - j
    if 0 < i ∧ i < name.length - 1 then name.drop i else []
  else []

/-- A watchdog filesystem event: a directory flag and the source path,
represented by its `pathlib` parts. -/
structure FsEvent where
  isDirectory : Bool
  srcPathParts : List (List Char)
deriving DecidableEq

/-- The fixed set of file extensions that trigger a rebuild
(`_should_rebuild`, `server.py` line 127). -/
def relevantExtensions : List (List Char) :=
  [".md".toList, ".yml".toList, ".yaml".toList, ".html".toList, ".css".toList, ".js".toList]

/-- `LiveReloadHandler._should_rebuild` (`server.py`, lines 116–128): skip
paths with a hidden (dot-initial) component, skip paths inside the output
directory (`output_dir in file_path.parents`, i.e. the output directory's
parts are a proper prefix of the file's parts), and otherwise require the
lower-cased extension to be in the relevant set. -/
def shouldRebuild (outputDirParts fileParts : List (List Char)) : Bool :=
  if fileParts.any (fun part => ".".toList.isPrefixOf part) then false
  else if outputDirParts.isPrefixOf fileParts && !(outputDirParts == fileParts) then false
  else relevantExtensions.contains ((pathNameSuffix (fileParts.getLastD [])).map Char.toLower)

/-- State of the debounce machinery of `LiveReloadHandler`: the id of the next
`threading.Timer` to be created, the currently pending timer, the timers that
were cancelled before expiring (a cancelled timer never runs its callback),
and how many times `_rebuild` has run. -/
structure DebounceState where
  nextId : Nat
  pending : Option Nat
  cancelled : List Nat
  rebuilds : Nat
deriving DecidableEq

/-- The handler's initial state: no pending timer, no rebuild yet. -/
def initDebounce : DebounceState := ⟨0, none, [], 0⟩

/-- `LiveReloadHandler._schedule_rebuild` (`server.py`, lines 130–139), run
under the handler's lock: cancel the pending timer if there is one, then
create and start a fresh timer. -/
def scheduleRebuild (s : DebounceState) : DebounceState :=
  { nextId := s.nextId + 1
    pending := some s.nextId
    cancelled :=
      match s.pending with
      | some i => i :: s.cancelled
      | none => s.cancelled
    rebuilds := s.rebuilds }

/-- `LiveReloadHandler.on_modified` / `on_created` / `on_deleted`: directory
events are ignored; a qualifying file event schedules a debounced rebuild. -/
def onEvent (outputDirParts : List (List Char)) (s : DebounceState) (e : FsEvent) :
    DebounceState :=
  if e.isDirectory then s
  else if shouldRebuild outputDirParts e.srcPathParts then scheduleRebuild s
  else s

/-- Expiry of timer `i`: a cancelled timer does nothing; an uncancelled timer
runs `_rebuild` — exactly one rebuild — and is no longer pending. -/
def fireTimer (s : DebounceState) (i : Nat) : DebounceState :=
  if i ∈ s.cancelled then s
  else
    { s with
      rebuilds := s.rebuilds + 1
      pending := if s.pending = some i then none else s.pending }

/-- Deliver a sequence of filesystem events to the handler. -/
def runEvents (outputDirParts : List (List Char)) (s : DebounceState) (evs : List FsEvent) :
    DebounceState :=
  evs.foldl (onEvent outputDirParts) s

/-- Let a list of timers (attempt to) expire, in order. -/
def fireAll (s : DebounceState) (ids : List Nat) : DebounceState :=
  ids.foldl fireTimer s

theorem runEvents_qualifying (out : List (List Char)) (evs : List FsEvent)
    (h : ∀ e ∈ evs, e.isDirectory = false ∧ shouldRebuild out e.srcPathParts = true) :
    runEvents out initDebounce evs =
      { nextId := evs.length
        pending := if evs.length = 0 then none else some (evs.length - 1)
        cancelled := (List.range (evs.length - 1)).reverse
        rebuilds := 0 } := by
  induction evs using List.reverseRecOn with
  | nil => simp [runEvents, initDebounce]
  | append_singleton l e ih =>
    have he := h e (by simp)
    have hl : ∀ e' ∈ l, e'.isDirectory = false ∧ shouldRebuild out e'.srcPathParts = true :=
      fun e' he' => h e' (by simp [he'])
    have hstep : runEvents out initDebounce (l ++ [e]) =
        onEvent out (runEvents out initDebounce l) e := by
      unfold runEvents
      rw [List.foldl_append]
      rfl
    rw [hstep, ih hl]
    unfold onEvent
    rw [he.1, he.2]
    simp only [Bool.false_eq_true, if_false, if_true]
    by_cases h0 : l.length = 0
    · simp [h0, scheduleRebuild]
    · have hpos : 0 < l.length := Nat.pos_of_ne_zero h0
      have hrange : List.range l.length = List.range (l.length - 1) ++ [l.length - 1] := by
        conv_lhs => rw [← Nat.succ_pred_eq_of_pos hpos]
        rw [List.range_succ]
        simp only [Nat.pred_eq_sub_one]
      simp only [h0, if_false, scheduleRebuild, List.length_append, List.length_cons,
        List.length_nil, Nat.zero_add, DebounceState.mk.injEq]
      refine ⟨trivial, ?_, ?_, trivial⟩
      · rw [if_neg (by omega), Nat.add_sub_cancel]
      · rw [Nat.add_sub_cancel, hrange]
        simp

theorem fireAll_of_all_cancelled (s : DebounceState) (ids : List Nat)
    (h : ∀ i ∈ ids, i ∈ s.cancelled) : fireAll s ids = s := by
  induction ids with
  | nil => rfl
  | cons i t ih =>
    unfold fireAll
    rw [List.foldl_cons]
    rw [show fireTimer s i = s from by unfold fireTimer; rw [if_pos (h i (by simp))]]
    exact ih (fun j hj => h j (by simp [hj]))

/-- C1 (debounce coalescing): a nonempty burst of qualifying filesystem events
(non-hidden path, outside the output directory, relevant extension), each
arriving before the previously started debounce timer fires, causes zero
rebuilds while the burst lasts, leaves exactly one timer pending (every
earlier timer was cancelled by `_schedule_rebuild`), and when all started
timers then attempt to expire exactly one rebuild runs — not one per event. -/
theorem claim_C1 (out : List (List Char)) (evs : List FsEvent) (hne : evs ≠ [])
    (h : ∀ e ∈ evs, e.isDirectory = false ∧ shouldRebuild out e.srcPathParts = true) :
    (runEvents out initDebounce evs).rebuilds = 0 ∧
    (runEvents out initDebounce evs).pending = some (evs.length - 1) ∧
    (fireAll (runEvents out initDebounce evs) (List.range evs.length)).rebuilds = 1 := by
  have h0 : evs.length ≠ 0 := fun hc => hne (List.length_eq_zero.mp hc)
  have hpos : 0 < evs.length := Nat.pos_of_ne_zero h0
  rw [runEvents_qualifying out evs h]
  refine ⟨rfl, by simp [h0], ?_⟩
  have hrange : List.range evs.length = List.range (evs.length - 1) ++ [evs.length - 1] := by
    conv_lhs => rw [← Nat.succ_pred_eq_of_pos hpos]
    rw [List.range_succ]
    simp only [Nat.pred_eq_sub_one]
  rw [hrange]
  unfold fireAll
  rw [List.foldl_append]
  rw [show (List.range (evs.length - 1)).foldl fireTimer
      { nextId := evs.length
        pending := if evs.length = 0 then none else some (evs.length - 1)
        cancelled := (List.range (evs.length - 1)).reverse
        rebuilds := 0 : DebounceState } =
      { nextId := evs.length
        pending := if evs.length = 0 then none else some (evs.length - 1)
        cancelled := (List.range (evs.length - 1)).reverse
        rebuilds := 0 : DebounceState } from
    fireAll_of_all_cancelled _ _ (fun i hi => by simpa using hi)]
  have hnc : (evs.length - 1) ∉ (List.range (evs.length - 1)).reverse := by
    simp
  simp only [List.foldl_cons, List.foldl_nil]
  unfold fireTimer
  rw [if_neg hnc]

/-- C1 witness: two qualifying `.md` modification events followed by the
expiry attempts of both timers — one rebuild results. -/
theorem claim_C1_witness :
    (runEvents [['d', 'i', 's', 't']] initDebounce
      [⟨false, [['d', 'o', 'c', 's'], ['a', '.', 'm', 'd']]⟩,
       ⟨false, [['d', 'o', 'c', 's'], ['a', '.', 'm', 'd']]⟩]).rebuilds = 0 ∧
    (runEvents [['d', 'i', 's', 't']] initDebounce
      [⟨false, [['d', 'o', 'c', 's'], ['a', '.', 'm', 'd']]⟩,
       ⟨false, [['d', 'o', 'c', 's'], ['a', '.', 'm', 'd']]⟩]).pending = some 1 ∧
    (fireAll (runEvents [['d', 'i', 's', 't']] initDebounce
      [⟨false, [['d', 'o', 'c', 's'], ['a', '.', 'm', 'd']]⟩,
       ⟨false, [['d', 'o', 'c', 's'], ['a', '.', 'm', 'd']]⟩]) (List.range 2)).rebuilds = 1 :=
  claim_C1 [['d', 'i', 's', 't']]
    [⟨false, [['d', 'o', 'c', 's'], ['a', '.', 'm', 'd']]⟩,
     ⟨false, [['d', 'o', 'c', 's'], ['a', '.', 'm', 'd']]⟩]
    (by decide) (by decide)

/-! ### Front matter extraction (`src/jinpress/markdown/processor.py`) and the
build engine (`src/jinpress/builder.py`) -/

/-- The regex fragment `\s*\n` under greedy backtracking, applied at the head
of `s`: consume the longest all-whitespace prefix that ends in a newline —
i.e. through the last `'\n'` of the maximal whitespace run — returning the
remainder; `none` when the whitespace run holds no newline. -/
def matchSpacesNewline (s : List Char) : Option (List Char) :=
  let w := s.takeWhile isPySpace
  if '\n' ∈ w then
    let j := w.length - 1 - (w.reverse.findIdx (· == '\n'))
    some (s.drop (j + 1))
  else none

/-- The lazy group `(.*?)` followed by `\n---\s*\n` (DOTALL): scan for the
earliest position where `\n---` followed by a whitespace-run-ending-in-newline
matches; everything before it is the captured group, everything after the
consumed closing delimiter is the rest. -/
def findFrontmatterClose : List Char → Option (List Char × List Char)
  | [] => none
  | c :: cs =>
    match
      (if "\n---".toList.isPrefixOf (c :: cs) then matchSpacesNewline ((c :: cs).drop 4)
       else none) with
    | some rest => some ([], rest)
    | none =>
      match findFrontmatterClose cs with
      | some (g, r) => some (c :: g, r)
      | none => none

/-- `re.match(r"^---\s*\n(.*?)\n---\s*\n", content, re.DOTALL)`: the leading
`---` line, the lazily captured YAML block, and the closing `---` line; the
opening `\s*\n` candidates (each newline of the whitespace run after `---`,
longest first) are tried in the regex engine's backtracking order. Returns
(captured group, content after the match) or `none`. -/
def pyMatchFrontmatter (content : List Char) : Option (List Char × List Char) :=
  if "---".toList.isPrefixOf content then
    let s := content.drop 3
    let w := s.takeWhile isPySpace
    ((List.range w.length).reverse.filter (fun j => w.getD j ' ' == '\n')).foldl
      (fun acc j =>
        match acc with
        | some r => some r
        | none => findFrontmatterClose (s.drop (j + 1))) none
  else none

/-- Outcome of the external collaborator `yaml.safe_load` on a front-matter
block: an exception, a falsy value (`None`, empty), or a mapping. -/
inductive YamlOutcome where
  | err
  | falsy
  | val (fm : List (List Char × List Char))

/-- `MarkdownProcessor.extract_frontmatter` (`processor.py`, lines 215–237):
match the front-matter block; on a match run the YAML parser, treating BOTH a
`yaml.YAMLError` and a falsy result as an empty mapping (`except` branch and
`or {}` respectively) — a malformed block never raises; without a match the
whole content is the body. -/
def extractFrontmatter (parseYaml : List Char → YamlOutcome) (content : List Char) :
    List (List Char × List Char) × List Char :=
  match pyMatchFrontmatter content with
  | some (y, body) =>
    match parseYaml y with
    | YamlOutcome.err => ([], body)
    | YamlOutcome.falsy => ([], body)
    | YamlOutcome.val fm => (fm, body)
  | none => ([], content)

/-- The slice of `ProcessedPage` relevant to front-matter handling and build
accounting (title/TOC/URL derivation are modelled separately). -/
structure PageModel where
  path : List Char
  frontmatter : List (List Char × List Char)
  body : List Char

/-- A Markdown source file as the pipeline sees it: its path and the result
of `file_path.read_text` (reading is the pipeline step that can raise). -/
structure MdFile where
  path : List Char
  readResult : Except (List Char) (List Char)

/-- `MarkdownProcessor.process_file` (front-matter slice): read the file —
the only failing step — then split front matter from body. -/
def processFile (parseYaml : List Char → YamlOutcome) (f : MdFile) :
    Except (List Char) PageModel :=
  match f.readResult with
  | Except.error e => Except.error e
  | Except.ok content =>
    let fmBody := extractFrontmatter parseYaml content
    Except.ok { path := f.path, frontmatter := fmBody.1, body := fmBody.2 }

/-- `BuildEngine._process_markdown_files` (`builder.py`, lines 179–211): each
file that processes cleanly becomes a page; each failure appends a
`Failed to process …` warning and the file is skipped. -/
def processMarkdownFiles (parseYaml : List Char → YamlOutcome) :
    List MdFile → List PageModel × List (List Char)
  | [] => ([], [])
  | f :: fs =>
    let rest := processMarkdownFiles parseYaml fs
    match processFile parseYaml f with
    | Except.ok p => (p :: rest.1, rest.2)
    | Except.error e =>
      (rest.1, ("Failed to process ".toList ++ f.path ++ ": ".toList ++ e) :: rest.2)

/-- `BuildEngine._generate_pages` (`builder.py`, lines 224–238): rendering
failures append a `Failed to generate page for …` warning, never an error. -/
def generatePagesWarnings (render : PageModel → Except (List Char) (List Char)) :
    List PageModel → List (List Char)
  | [] => []
  | p :: ps =>
    match render p with
    | Except.ok _ => generatePagesWarnings render ps
    | Except.error e =>
      ("Failed to generate page for ".toList ++ p.path ++ ": ".toList ++ e) ::
        generatePagesWarnings render ps

/-- The observable fields of `BuildResult`. -/
structure BuildResultM where
  success : Bool
  pagesBuilt : Nat
  errors : List (List Char)
  warnings : List (List Char)

/-- `BuildEngine.build` (`builder.py`, lines 104–171): a missing docs
directory raises a `BuildError` caught by the top-level handler (one error
entry, `success = False`); any exception escaping a later stage — modelled by
`markerWriteError` for the `.nojekyll` write — is likewise converted into a
single error entry while keeping the warnings accumulated so far; otherwise
`success = len(errors) == 0` with the error list still empty, per-file
problems having gone to `warnings`. The `clean` flag only removes output
files and does not influence the result fields. -/
def buildModel (parseYaml : List Char → YamlOutcome)
    (render : PageModel → Except (List Char) (List Char))
    (docsDirExists : Bool) (files : List MdFile)
    (markerWriteError : Option (List Char)) (clean : Bool) : BuildResultM :=
  if !docsDirExists then
    { success := false
      pagesBuilt := 0
      errors := ["Docs directory not found".toList]
      warnings := [] }
  else
    let pw := processMarkdownFiles parseYaml files
    let w2 := generatePagesWarnings render pw.1
    match markerWriteError with
    | some e =>
      { success := false
        pagesBuilt := pw.1.length
        errors := [e]
        warnings := pw.2 ++ w2 }
    | none =>
      let errors : List (List Char) := []
      { success := errors.isEmpty
        pagesBuilt := pw.1.length
        errors := errors
        warnings := pw.2 ++ w2 }

theorem processFile_error_iff (py : List Char → YamlOutcome) (f : MdFile) (e : List Char) :
    processFile py f = Except.error e ↔ f.readResult = Except.error e := by
  unfold processFile
  cases f.readResult with
  | error e' => simp
  | ok content => simp

theorem processMarkdownFiles_mem_warning (py : List Char → YamlOutcome)
    (files : List MdFile) (f : MdFile) (hf : f ∈ files) (e : List Char)
    (he : f.readResult = Except.error e) :
    ("Failed to process ".toList ++ f.path ++ ": ".toList ++ e) ∈
      (processMarkdownFiles py files).2 := by
  induction files with
  | nil => cases hf
  | cons g fs ih =>
    rcases List.mem_cons.mp hf with rfl | hmem
    · have hpf : processFile py f = Except.error e := (processFile_error_iff py f e).mpr he
      simp only [processMarkdownFiles, hpf]
      exact List.mem_cons_self _ _
    · have hmem2 := ih hmem
      simp only [processMarkdownFiles]
      cases hpf : processFile py g with
      | ok p => simpa using hmem2
      | error e' => simpa using Or.inr hmem2

/-- C8: for every invocation of `build` (any `clean` flag, any per-file
outcomes, including the structural-failure paths), the returned result has
`success = true` exactly when its error list is empty; and when the build
reaches its normal return, a file that failed to process contributes a
warning naming it while the error list stays empty. -/
theorem claim_C8 (py : List Char → YamlOutcome)
    (render : PageModel → Except (List Char) (List Char))
    (docsDirExists : Bool) (files : List MdFile)
    (markerWriteError : Option (List Char)) (clean : Bool) :
    ((buildModel py render docsDirExists files markerWriteError clean).success = true ↔
      (buildModel py render docsDirExists files markerWriteError clean).errors = []) ∧
    (∀ f ∈ files, ∀ e, f.readResult = Except.error e → docsDirExists = true →
      markerWriteError = none →
      ("Failed to process ".toList ++ f.path ++ ": ".toList ++ e) ∈
        (buildModel py render docsDirExists files markerWriteError clean).warnings ∧
      (buildModel py render docsDirExists files markerWriteError clean).errors = []) := by
  constructor
  · unfold buildModel
    cases docsDirExists with
    | false => simp
    | true =>
      cases markerWriteError with
      | some e => simp
      | none => simp
  · intro f hf e he hdocs hmark
    subst hdocs
    subst hmark
    have hw := processMarkdownFiles_mem_warning py files f hf e he
    unfold buildModel
    simp only [Bool.not_true, Bool.false_eq_true, if_false]
    exact ⟨List.mem_append.mpr (Or.inl hw), trivial⟩

/-- C8 witness: a two-file build in which the second file fails to read —
`success` is true with an empty error list, and the failure shows up as a
`Failed to process` warning. -/
theorem claim_C8_witness :
    ((buildModel (fun _ => YamlOutcome.falsy) (fun _ => Except.ok ['x']) true
        [⟨"docs/a.md".toList, Except.ok "# A".toList⟩,
         ⟨"docs/b.md".toList, Except.error "boom".toList⟩] none true).success = true ↔
      (buildModel (fun _ => YamlOutcome.falsy) (fun _ => Except.ok ['x']) true
        [⟨"docs/a.md".toList, Except.ok "# A".toList⟩,
         ⟨"docs/b.md".toList, Except.error "boom".toList⟩] none true).errors = []) ∧
    (("Failed to process ".toList ++ "docs/b.md".toList ++ ": ".toList ++ "boom".toList) ∈
      (buildModel (fun _ => YamlOutcome.falsy) (fun _ => Except.ok ['x']) true
        [⟨"docs/a.md".toList, Except.ok "# A".toList⟩,
         ⟨"docs/b.md".toList, Except.error "boom".toList⟩] none true).warnings ∧
      (buildModel (fun _ => YamlOutcome.falsy) (fun _ => Except.ok ['x']) true
        [⟨"docs/a.md".toList, Except.ok "# A".toList⟩,
         ⟨"docs/b.md".toList, Except.error "boom".toList⟩] none true).errors = []) :=
  ⟨(claim_C8 (fun _ => YamlOutcome.falsy) (fun _ => Except.ok ['x']) true
      [⟨"docs/a.md".toList, Except.ok "# A".toList⟩,
       ⟨"docs/b.md".toList, Except.error "boom".toList⟩] none true).1,
   (claim_C8 (fun _ => YamlOutcome.falsy) (fun _ => Except.ok ['x']) true
      [⟨"docs/a.md".toList, Except.ok "# A".toList⟩,
       ⟨"docs/b.md".toList, Except.error "boom".toList⟩] none true).2
     ⟨"docs/b.md".toList, Except.error "boom".toList⟩ (by simp)
     "boom".toList rfl rfl rfl⟩

/-! ### The search indexer (`src/jinpress/search.py`) -/

/-- `re.sub` of a run-pattern (`\s+`, `-+`): every maximal run of characters
satisfying `p` is replaced by the single character `r`; `inRun` records
whether the scan is inside a run already matched. -/
def subRunsAux (p : Char → Bool) (r : Char) (inRun : Bool) : List Char → List Char
  | [] => []
  | c :: cs =>
    if p c then
      if inRun then subRunsAux p r true cs
      else r :: subRunsAux p r true cs
    else c :: subRunsAux p r false cs

/-- `re.sub` of a run-pattern from outside any run. -/
def subRuns (p : Char → Bool) (r : Char) (l : List Char) : List Char :=
  subRunsAux p r false l

/-- Python `s.replace(pat, rep)` (all non-overlapping occurrences, scanned
left to right). -/
def pyReplace (pat rep : List Char) : List Char → List Char
  | [] => []
  | c :: cs =>
    if pat ≠ [] ∧ pat.isPrefixOf (c :: cs) then
      rep ++ pyReplace pat rep ((c :: cs).drop pat.length)
    else c :: pyReplace pat rep cs
termination_by l => l.length
decreasing_by
  · rename_i h
    have hp : 1 ≤ pat.length := List.length_pos.mpr h.1
    simp only [List.length_drop, List.length_cons]
    omega
  · simp

/-- `re.sub(r"<[^>]+>", rep, …)`: every `<`, at least one non-`>` character,
`>` block is replaced by `rep` (a space in the text extractor, nothing in the
heading cleaner). -/
def stripTags (rep : List Char) : List Char → List Char
  | [] => []
  | c :: cs =>
    if c = '<' then
      let body := cs.takeWhile (· != '>')
      if body.length < cs.length && !body.isEmpty then
        rep ++ stripTags rep (cs.drop (body.length + 1))
      else c :: stripTags rep cs
    else c :: stripTags rep cs
termination_by l => l.length
decreasing_by
  · simp only [List.length_drop, List.length_cons]
    omega
  · simp
  · simp

/-- Remainder of `l` after the first occurrence of `pat` (`none` when `pat`
does not occur): the lazy `.*?pat` search. -/
def dropThroughFirst (pat : List Char) : List Char → Option (List Char)
  | [] => none
  | c :: cs =>
    if pat.isPrefixOf (c :: cs) then some ((c :: cs).drop pat.length)
    else dropThroughFirst pat cs

theorem dropThroughFirst_length_le (pat : List Char) :
    ∀ l r, dropThroughFirst pat l = some r → r.length ≤ l.length := by
  intro l
  induction l with
  | nil => intro r hr; cases hr
  | cons c cs ih =>
    intro r hr
    unfold dropThroughFirst at hr
    by_cases hp : pat.isPrefixOf (c :: cs) = true
    · rw [if_pos hp] at hr
      cases hr
      simp only [List.length_drop, List.length_cons]
      omega
    · rw [if_neg hp] at hr
      exact (ih r hr).trans (by simp)

/-- `re.sub(r"<TAG[^>]*>.*?</TAG>", " ", text, flags=re.DOTALL)` for
`TAG = script`/`style`: the opening tag, its attributes up to `>`, the lazily
matched body up to the first closing tag, all replaced by one space. -/
def stripBlock (tag closeTag : List Char) : List Char → List Char
  | [] => []
  | c :: cs =>
    if ('<' :: tag).isPrefixOf (c :: cs) then
      if ((cs.drop tag.length).takeWhile (· != '>')).length < (cs.drop tag.length).length then
        match hrest : dropThroughFirst closeTag
            ((cs.drop tag.length).drop
              (((cs.drop tag.length).takeWhile (· != '>')).length + 1)) with
        | some rest => ' ' :: stripBlock tag closeTag rest
        | none => c :: stripBlock tag closeTag cs
      else c :: stripBlock tag closeTag cs
    else c :: stripBlock tag closeTag cs
termination_by l => l.length
decreasing_by
  · have h1 := dropThroughFirst_length_le closeTag _ _ hrest
    simp only [List.length_drop] at h1
    simp only [List.length_cons]
    omega
  all_goals simp

/-- `SearchIndexer._extract_text_content` (`search.py`, lines 102–132):
remove `<script>`/`<style>` blocks, strip the remaining tags to spaces, decode
the five basic entities, collapse whitespace runs, and trim. -/
def extractTextContent (htmlContent : List Char) : List Char :=
  if htmlContent.isEmpty then []
  else
    let t := stripBlock "script".toList "</script>".toList htmlContent
    let t := stripBlock "style".toList "</style>".toList t
    let t := stripTags [' '] t
    let t := pyReplace "&nbsp;".toList [' '] t
    let t := pyReplace "&lt;".toList ['<'] t
    let t := pyReplace "&gt;".toList ['>'] t
    let t := pyReplace "&amp;".toList ['&'] t
    let t := pyReplace "&quot;".toList ['"'] t
    let t := subRuns isPySpace ' ' t
    pyTrim t

/-- Does `c` match the regex class `[1-6]`? -/
def isHDigit (c : Char) : Bool := '1' ≤ c && c ≤ '6'

/-- Match `<h[1-6][^>]*>` (case-insensitive `h`) at the head, returning the
remainder after the `>`. -/
def matchHOpen : List Char → Option (List Char)
  | '<' :: h :: d :: rest =>
    if (h == 'h' || h == 'H') && isHDigit d then
      if (rest.takeWhile (· != '>')).length < rest.length then
        some (rest.drop ((rest.takeWhile (· != '>')).length + 1))
      else none
    else none
  | _ => none

/-- Match `</h[1-6]>` (case-insensitive `h`) at the head, returning the
remainder. -/
def matchHClose : List Char → Option (List Char)
  | '<' :: '/' :: h :: d :: '>' :: rest =>
    if (h == 'h' || h == 'H') && isHDigit d then some rest else none
  | _ => none

/-- The lazy group of the heading regex: scan for the earliest closing
`</h[1-6]>`, returning the captured group and the remainder. -/
def findHClose : List Char → Option (List Char × List Char)
  | [] => none
  | c :: cs =>
    match matchHClose (c :: cs) with
    | some rest => some ([], rest)
    | none =>
      match findHClose cs with
      | some (g, r) => some (c :: g, r)
      | none => none

theorem matchHOpen_length_lt :
    ∀ l a, matchHOpen l = some a → a.length < l.length := by
  intro l a h
  unfold matchHOpen at h
  split at h
  · split at h
    · split at h
      · cases h
        rename_i hlt
        simp only [List.length_drop, List.length_cons]
        omega
      · cases h
    · cases h
  · cases h

theorem matchHClose_length_le :
    ∀ l r, matchHClose l = some r → r.length ≤ l.length := by
  intro l r h
  unfold matchHClose at h
  split at h
  · split at h
    · cases h
      simp only [List.length_cons]
      omega
    · cases h
  · cases h

theorem findHClose_length_le :
    ∀ l g r, findHClose l = some (g, r) → r.length ≤ l.length := by
  intro l
  induction l with
  | nil => intro g r h; cases h
  | cons c cs ih =>
    intro g r h
    unfold findHClose at h
    cases hm : matchHClose (c :: cs) with
    | some rest =>
      rw [hm] at h
      cases h
      exact matchHClose_length_le _ _ hm
    | none =>
      rw [hm] at h
      cases hf : findHClose cs with
      | some gr =>
        rw [hf] at h
        cases h
        exact (ih _ _ hf).trans (by simp)
      | none => rw [hf] at h; cases h

/-- `re.findall(r"<h[1-6][^>]*>(.*?)</h[1-6]>", …, re.DOTALL | re.IGNORECASE)`:
all captured heading bodies, in document order. -/
def findHeadingBlocks : List Char → List (List Char)
  | [] => []
  | c :: cs =>
    match hopen : matchHOpen (c :: cs) with
    | some afterOpen =>
      match hclose : findHClose afterOpen with
      | some gr => gr.1 :: findHeadingBlocks gr.2
      | none => findHeadingBlocks cs
    | none => findHeadingBlocks cs
termination_by l => l.length
decreasing_by
  · have h1 := matchHOpen_length_lt _ _ hopen
    have h2 := findHClose_length_le _ _ _ hclose
    omega
  · simp
  · simp

/-- `SearchIndexer._extract_headings` (`search.py`, lines 134–160): capture
`<h1>`–`<h6>` bodies, strip nested tags, trim, and keep the nonempty ones in
document order. -/
def extractHeadings (htmlContent : List Char) : List (List Char) :=
  if htmlContent.isEmpty then []
  else
    ((findHeadingBlocks htmlContent).map (fun m => pyTrim (stripTags [] m))).filter
      (fun t => !t.isEmpty)

/-- `SearchDocument` (`search.py`, lines 16–24). -/
structure SearchDoc where
  url : List Char
  title : List Char
  content : List Char
  headings : List (List Char)
  description : List Char
deriving DecidableEq

/-- The `file_info` dictionary handed to `add_document` by
`BuildEngine._add_to_search_index` (`builder.py`, lines 213–222); the builder
passes no `headings` key, i.e. the `headings` field defaults to `[]`. -/
structure FileInfo where
  title : List Char
  url_path : List Char
  description : List Char
  html_content : List Char
  headings : List (List Char)
deriving DecidableEq

/-- `SearchIndexer.add_document` (`search.py`, lines 39–68): extract the plain
text, fall back to headings extracted from the HTML when none were supplied,
and append — unconditionally — the new document to the accumulated list. -/
def addDocument (docs : List SearchDoc) (fi : FileInfo) : List SearchDoc :=
  docs ++
    [{ url := fi.url_path
       title := fi.title
       content := extractTextContent fi.html_content
       headings :=
         if fi.headings.isEmpty then extractHeadings fi.html_content else fi.headings
       description := fi.description }]

/-- One hexadecimal digit character. -/
def hexDigitChar (n : Nat) : Char := if n < 10 then Char.ofNat (48 + n) else Char.ofNat (87 + n)

/-- `json.dump` escaping of one character with `ensure_ascii=False`: only the
JSON-mandatory escapes; every other character — non-ASCII included — is
emitted verbatim. -/
def jsonEscapeChar (c : Char) : List Char :=
  if c = '"' then ['\\', '"']
  else if c = '\\' then ['\\', '\\']
  else if c = '\n' then ['\\', 'n']
  else if c = '\t' then ['\\', 't']
  else if c = '\x0d' then ['\\', 'r']
  else if c.toNat = 8 then ['\\', 'b']
  else if c.toNat = 12 then ['\\', 'f']
  else if c.toNat < 32 then
    '\\' :: 'u' :: '0' :: '0' :: [hexDigitChar (c.toNat / 16), hexDigitChar (c.toNat % 16)]
  else [c]

/-- A JSON string literal. -/
def jsonString (s : List Char) : List Char := '"' :: (s.map jsonEscapeChar).flatten ++ ['"']

/-- Python `sep.join(pieces)`. -/
def joinSep (sep : List Char) : List (List Char) → List Char
  | [] => []
  | [x] => x
  | x :: y :: t => x ++ sep ++ joinSep sep (y :: t)

/-- A compact JSON array of strings. -/
def jsonStringArray (l : List (List Char)) : List Char :=
  '[' :: joinSep [','] (l.map jsonString) ++ [']']

/-- One document of the index as `json.dump` with `separators=(",", ":")`
writes it: the five fields in insertion order. -/
def serializeDoc (d : SearchDoc) : List Char :=
  '\x7b' ::
    ("\"url\":".toList ++ jsonString d.url ++
     ",\"title\":".toList ++ jsonString d.title ++
     ",\"content\":".toList ++ jsonString d.content ++
     ",\"headings\":".toList ++ jsonStringArray d.headings ++
     ",\"description\":".toList ++ jsonString d.description) ++ ['\x7d']

/-- `SearchIndexer.generate_index` (`search.py`, lines 162–187): the whole
accumulated document list as a single compact JSON array. -/
def serializeIndex (docs : List SearchDoc) : List Char :=
  '[' :: joinSep [','] (docs.map serializeDoc) ++ [']']

theorem foldl_addDocument_length (adds : List FileInfo) :
    ∀ docs : List SearchDoc, (adds.foldl addDocument docs).length = docs.length + adds.length := by
  induction adds with
  | nil => intro docs; simp
  | cons fi t ih =>
    intro docs
    rw [List.foldl_cons, ih (addDocument docs fi)]
    simp only [addDocument, List.length_append, List.length_cons, List.length_nil]
    omega

theorem foldl_addDocument_sub (adds : List FileInfo) :
    ∀ docs : List SearchDoc, ∀ d ∈ docs, d ∈ adds.foldl addDocument docs := by
  induction adds with
  | nil => intro docs d hd; simpa using hd
  | cons fi t ih =>
    intro docs d hd
    simp only [List.foldl_cons]
    exact ih (addDocument docs fi) d (List.mem_append.mpr (Or.inl hd))

theorem foldl_addDocument_mem (adds : List FileInfo) :
    ∀ docs : List SearchDoc, ∀ fi ∈ adds, ∃ d ∈ adds.foldl addDocument docs,
      d.url = fi.url_path ∧ d.title = fi.title ∧ d.description = fi.description := by
  induction adds with
  | nil => intro docs fi hfi; cases hfi
  | cons g t ih =>
    intro docs fi hfi
    rcases List.mem_cons.mp hfi with rfl | hmem
    · refine ⟨{ url := fi.url_path
                title := fi.title
                content := extractTextContent fi.html_content
                headings :=
                  if fi.headings.isEmpty then extractHeadings fi.html_content else fi.headings
                description := fi.description }, ?_, rfl, rfl, rfl⟩
      simp only [List.foldl_cons]
      apply foldl_addDocument_sub
      simp [addDocument]
    · simpa only [List.foldl_cons] using ih (addDocument docs g) fi hmem

theorem mem_infix_joinSep (x : List Char) (sep : List Char) :
    ∀ L : List (List Char), x ∈ L → x <:+: joinSep sep L := by
  intro L
  induction L with
  | nil => intro h; cases h
  | cons y t ih =>
    intro h
    rcases List.mem_cons.mp h with rfl | hmem
    · cases t with
      | nil => exact List.infix_refl _
      | cons z t' => exact ((List.prefix_append _ _).trans (List.prefix_append _ _)).isInfix
    · cases t with
      | nil => cases hmem
      | cons z t' =>
        exact ((ih hmem).trans (List.suffix_append _ _).isInfix)

theorem jsonString_url_infix_serializeDoc (d : SearchDoc) :
    jsonString d.url <:+: serializeDoc d := by
  refine ⟨'\x7b' :: "\"url\":".toList, ?_, ?_⟩
  · exact ",\"title\":".toList ++ jsonString d.title ++
      ",\"content\":".toList ++ jsonString d.content ++
      ",\"headings\":".toList ++ jsonStringArray d.headings ++
      ",\"description\":".toList ++ jsonString d.description ++ ['\x7d']
  · simp [serializeDoc]

theorem jsonString_title_infix_serializeDoc (d : SearchDoc) :
    jsonString d.title <:+: serializeDoc d := by
  refine ⟨'\x7b' :: ("\"url\":".toList ++ jsonString d.url ++ ",\"title\":".toList), ?_, ?_⟩
  · exact ",\"content\":".toList ++ jsonString d.content ++
      ",\"headings\":".toList ++ jsonStringArray d.headings ++
      ",\"description\":".toList ++ jsonString d.description ++ ['\x7d']
  · simp [serializeDoc]

theorem infix_serializeIndex_of_mem (d : SearchDoc) (docs : List SearchDoc) (hd : d ∈ docs)
    (x : List Char) (hx : x <:+: serializeDoc d) : x <:+: serializeIndex docs := by
  have h1 : serializeDoc d ∈ docs.map serializeDoc := List.mem_map_of_mem _ hd
  have h2 : serializeDoc d <:+: joinSep [','] (docs.map serializeDoc) :=
    mem_infix_joinSep _ _ _ h1
  have h3 : joinSep [','] (docs.map serializeDoc) <:+: serializeIndex docs :=
    ⟨['['], [']'], by simp [serializeIndex]⟩
  exact hx.trans (h2.trans h3)

/-- C6: after adding `K` pages with pairwise-distinct URLs, the serialized
index holds exactly `K` documents; each added page appears as a document with
its URL, title and description; the JSON encodings of each added URL and
title occur in the serialized output; and the output is one compact JSON
array of the accumulated documents. -/
theorem claim_C6 (adds : List FileInfo)
    (hdist : adds.Pairwise (fun a b => a.url_path ≠ b.url_path)) :
    (adds.foldl addDocument []).length = adds.length ∧
    (∀ fi ∈ adds, ∃ d ∈ adds.foldl addDocument [],
      d.url = fi.url_path ∧ d.title = fi.title ∧ d.description = fi.description) ∧
    (∀ fi ∈ adds,
      jsonString fi.url_path <:+: serializeIndex (adds.foldl addDocument []) ∧
      jsonString fi.title <:+: serializeIndex (adds.foldl addDocument [])) ∧
    serializeIndex (adds.foldl addDocument []) =
      '[' :: joinSep [','] ((adds.foldl addDocument []).map serializeDoc) ++ [']'] := by
  refine ⟨by simpa using foldl_addDocument_length adds [], foldl_addDocument_mem adds [], ?_, rfl⟩
  intro fi hfi
  obtain ⟨d, hd, hurl, htitle, hdesc⟩ := foldl_addDocument_mem adds [] fi hfi
  constructor
  · exact infix_serializeIndex_of_mem d _ hd _ (hurl ▸ jsonString_url_infix_serializeDoc d)
  · exact infix_serializeIndex_of_mem d _ hd _ (htitle ▸ jsonString_title_infix_serializeDoc d)

/-- C6 witness: the theorem applied to two concrete pages with distinct URLs. -/
theorem claim_C6_witness :
    (([⟨"A".toList, "/a/".toList, [], "<p>a</p>".toList, []⟩,
       ⟨"B".toList, "/b/".toList, [], "<p>b</p>".toList, []⟩] : List FileInfo).foldl
        addDocument []).length =
      ([⟨"A".toList, "/a/".toList, [], "<p>a</p>".toList, []⟩,
        ⟨"B".toList, "/b/".toList, [], "<p>b</p>".toList, []⟩] : List FileInfo).length ∧
    (∀ fi ∈ ([⟨"A".toList, "/a/".toList, [], "<p>a</p>".toList, []⟩,
       ⟨"B".toList, "/b/".toList, [], "<p>b</p>".toList, []⟩] : List FileInfo),
      ∃ d ∈ ([⟨"A".toList, "/a/".toList, [], "<p>a</p>".toList, []⟩,
        ⟨"B".toList, "/b/".toList, [], "<p>b</p>".toList, []⟩] : List FileInfo).foldl
          addDocument [],
        d.url = fi.url_path ∧ d.title = fi.title ∧ d.description = fi.description) ∧
    (∀ fi ∈ ([⟨"A".toList, "/a/".toList, [], "<p>a</p>".toList, []⟩,
       ⟨"B".toList, "/b/".toList, [], "<p>b</p>".toList, []⟩] : List FileInfo),
      jsonString fi.url_path <:+:
        serializeIndex (([⟨"A".toList, "/a/".toList, [], "<p>a</p>".toList, []⟩,
          ⟨"B".toList, "/b/".toList, [], "<p>b</p>".toList, []⟩] : List FileInfo).foldl
            addDocument []) ∧
      jsonString fi.title <:+:
        serializeIndex (([⟨"A".toList, "/a/".toList, [], "<p>a</p>".toList, []⟩,
          ⟨"B".toList, "/b/".toList, [], "<p>b</p>".toList, []⟩] : List FileInfo).foldl
            addDocument [])) ∧
    serializeIndex (([⟨"A".toList, "/a/".toList, [], "<p>a</p>".toList, []⟩,
      ⟨"B".toList, "/b/".toList, [], "<p>b</p>".toList, []⟩] : List FileInfo).foldl
        addDocument []) =
      '[' :: joinSep [',']
        ((([⟨"A".toList, "/a/".toList, [], "<p>a</p>".toList, []⟩,
          ⟨"B".toList, "/b/".toList, [], "<p>b</p>".toList, []⟩] : List FileInfo).foldl
            addDocument []).map serializeDoc) ++ [']'] :=
  claim_C6 _ (by decide)

/-- The search-index accumulation of one `BuildEngine.build` run: the engine's
indexer documents before the run, extended by one `add_document` per processed
page (`_process_markdown_files` + `_add_to_search_index`); `build` never
clears the list. -/
def buildAddAll (docs : List SearchDoc) (pages : List FileInfo) : List SearchDoc :=
  pages.foldl addDocument docs

/-- C9 (code bug): calling `BuildEngine.build` twice on the same engine —
which is exactly what two consecutive clean builds through one
`Builder`/`BuildEngine` instance, or any dev-server rebuild, do — re-appends
every page to the never-cleared `SearchIndexer`, so the second run's
`search-index.json` holds each document twice and is NOT byte-identical to
the first run's. -/
theorem claim_C9_code_bug (fi : FileInfo) :
    (buildAddAll [] [fi]).length = 1 ∧
    (buildAddAll (buildAddAll [] [fi]) [fi]).length = 2 ∧
    serializeIndex (buildAddAll (buildAddAll [] [fi]) [fi]) ≠
      serializeIndex (buildAddAll [] [fi]) := by
  refine ⟨rfl, rfl, ?_⟩
  intro heq
  have hlen := congrArg List.length heq
  simp only [buildAddAll, List.foldl_cons, List.foldl_nil, addDocument, List.nil_append,
    serializeIndex, List.map_cons, List.map_nil, joinSep, List.length_cons,
    List.length_append] at hlen
  omega

/-! ### URL path derivation (`src/jinpress/builder.py`, `generate_url_path`;
the same algorithm as `MarkdownProcessor._generate_url_path`) -/

/-- `generate_url_path` (`builder.py`, lines 473–513): normalise backslashes,
strip a final `.md`, remove a trailing `index` segment with
`rsplit("index", 1)[0]`, ensure leading and trailing slashes, and prefix the
rstripped base path when it is neither empty nor `/`. The docs-relative path
is taken as input (the source computes it with `relative_to`). -/
def generateUrlPath (relPath basePath : List Char) : List Char :=
  let urlPath := relPath.map (fun c => if c = '\\' then '/' else c)
  let urlPath := if ".md".toList.isSuffixOf urlPath then pyDropRight 3 urlPath else urlPath
  let urlPath :=
    if "/index".toList.isSuffixOf urlPath || urlPath == "index".toList then
      pyRsplit1Head urlPath "index".toList
    else urlPath
  let urlPath := if "/".toList.isPrefixOf urlPath then urlPath else '/' :: urlPath
  let urlPath := if "/".toList.isSuffixOf urlPath then urlPath else urlPath ++ ['/']
  let base := pyRstripChar '/' basePath
  if base = [] ∨ base = ['/'] then urlPath else base ++ urlPath

theorem map_id_of (f : Char → Char) (l : List Char) (h : ∀ c ∈ l, f c = c) :
    l.map f = l := by
  induction l with
  | nil => rfl
  | cons c cs ih =>
    simp only [List.map_cons, h c (List.mem_cons_self _ _),
      ih (fun d hd => h d (List.mem_cons_of_mem _ hd))]

theorem mem_joinSep (sep : List Char) :
    ∀ L : List (List Char), ∀ c ∈ joinSep sep L, c ∈ sep ∨ ∃ l ∈ L, c ∈ l := by
  intro L
  induction L with
  | nil => intro c hc; cases hc
  | cons a t ih =>
    intro c hc
    cases t with
    | nil =>
      right
      exact ⟨a, List.mem_cons_self _ _, hc⟩
    | cons b t' =>
      simp only [joinSep, List.append_assoc, List.mem_append] at hc
      rcases hc with hc | hc | hc
      · exact Or.inr ⟨a, List.mem_cons_self _ _, hc⟩
      · exact Or.inl hc
      · rcases ih c hc with h1 | ⟨l, hl, hcl⟩
        · exact Or.inl h1
        · exact Or.inr ⟨l, List.mem_cons_of_mem _ hl, hcl⟩

theorem joinSep_concat (sep : List Char) :
    ∀ (L : List (List Char)) (x : List Char),
      joinSep sep (L ++ [x]) = (if L.isEmpty then [] else joinSep sep L ++ sep) ++ x := by
  intro L
  induction L with
  | nil => intro x; simp [joinSep]
  | cons a t ih =>
    intro x
    cases t with
    | nil => simp [joinSep]
    | cons b t' =>
      have ihx := ih x
      simp only [List.cons_append, List.isEmpty_cons, Bool.false_eq_true, if_false] at ihx
      simp only [List.cons_append, joinSep, List.append_eq, List.isEmpty_cons,
        Bool.false_eq_true, if_false, ihx, List.append_assoc]

theorem joinSep_cons_eq (sep : List Char) (a : List Char) (t : List (List Char)) :
    joinSep sep (a :: t) = a ++ (if t.isEmpty then [] else sep ++ joinSep sep t) := by
  cases t with
  | nil => simp [joinSep]
  | cons b t' => simp [joinSep]

theorem pyDropRight_append (l s : List Char) : pyDropRight s.length (l ++ s) = l := by
  unfold pyDropRight
  rw [List.length_append, Nat.add_sub_cancel]
  exact List.take_left l s

theorem suffix_of_suffix_length_le (a b l : List Char) (ha : a <:+ l) (hb : b <:+ l)
    (hab : a.length ≤ b.length) : a <:+ b := by
  have hbl := hb.length_le
  have hda := List.suffix_iff_eq_drop.mp ha
  have hdb := List.suffix_iff_eq_drop.mp hb
  rw [List.suffix_iff_eq_drop, hdb, List.drop_drop, List.length_drop]
  rw [show l.length - b.length + (l.length - (l.length - b.length) - a.length) =
    l.length - a.length from by omega]
  exact hda

theorem suffix_append_of_length_le (a x y : List Char) (h : a <:+ x ++ y)
    (hl : a.length ≤ y.length) : a <:+ y := by
  have hy : y <:+ x ++ y := List.suffix_append x y
  exact suffix_of_suffix_length_le a y (x ++ y) h hy hl

theorem pyRstripChar_prefixOf (c : Char) (s : List Char) : pyRstripChar c s <+: s := by
  unfold pyRstripChar
  have h1 : s.reverse.dropWhile (· == c) <:+ s.reverse := List.dropWhile_suffix _
  have h2 := List.reverse_prefix.mpr h1
  rwa [List.reverse_reverse] at h2

theorem slash_isPrefixOf_cons (c : Char) (cs : List Char) :
    ("/".toList.isPrefixOf (c :: cs)) = ('/' == c) := by
  show List.isPrefixOf ['/'] (c :: cs) = ('/' == c)
  simp [List.isPrefixOf]

/-- The branch condition of the `index` collapse is false when the final
segment `f` is neither `index` nor slash-containing. -/
theorem index_branch_false (P f : List Char)
    (hP : P = [] ∨ ∃ J, P = J ++ ['/'])
    (hfslash : ∀ c ∈ f, c ≠ '/') (hfne : f ≠ "index".toList) :
    ¬("/index".toList <:+ P ++ f) ∧ P ++ f ≠ "index".toList := by
  constructor
  · intro h6
    by_cases hlen : 6 ≤ f.length
    · have hf6 : "/index".toList <:+ f :=
        suffix_append_of_length_le _ P f h6 (by simpa using hlen)
      have : '/' ∈ f := hf6.subset (by decide)
      exact hfslash '/' this rfl
    · have hff : f <:+ P ++ f := List.suffix_append P f
      have hfsub : f <:+ "/index".toList :=
        suffix_of_suffix_length_le f "/index".toList (P ++ f) hff h6 (by simp; omega)
      obtain ⟨w, hw⟩ := hfsub
      obtain ⟨t, ht⟩ := h6
      have hPt : P = t ++ w := by
        have h1 : (t ++ w) ++ f = P ++ f := by
          rw [List.append_assoc, hw, ht]
        exact (List.append_cancel_right h1).symm
      have hwne : w ≠ [] := by
        intro hwe
        subst hwe
        simp only [List.nil_append] at hw
        have : '/' ∈ f := by rw [hw]; decide
        exact hfslash '/' this rfl
      rcases hP with hPe | ⟨J, hJ⟩
      · rw [hPe] at hPt
        exact hwne (List.append_eq_nil.mp hPt.symm).2
      · -- `P` ends in '/': so does `w`, but the only '/' in "/index" is its head
        have hsw : ['/'] <:+ w := by
          have hsP : ['/'] <:+ P := ⟨J, hJ.symm⟩
          rw [hPt] at hsP
          have hwlen : 1 ≤ w.length := List.length_pos.mpr hwne
          exact suffix_append_of_length_le ['/'] t w hsP (by simpa using hwlen)
      -- decompose `w` as '/' :: w2 from `w ++ f = "/index"`
        cases w with
        | nil => exact hwne rfl
        | cons w0 w2 =>
          rw [show "/index".toList = '/' :: "index".toList from rfl,
            List.cons_append] at hw
          injection hw with hw0 hwrest
          cases w2 with
          | nil =>
            simp only [List.nil_append] at hwrest
            exact hfne hwrest
          | cons w1 w3 =>
            -- w ends in '/', so '/' occurs in w2 = w1 :: w3, a prefix of "index"
            obtain ⟨ts, hts⟩ := hsw
            have hmem : '/' ∈ w1 :: w3 := by
              cases ts with
              | nil =>
                simp only [List.nil_append] at hts
                cases hts
              | cons t0 t4 =>
                simp only [List.cons_append] at hts
                injection hts with ht0 ht4
                rw [← ht4]
                simp
            have hpre : (w1 :: w3) <+: "index".toList := ⟨f, hwrest⟩
            have : '/' ∈ "index".toList := hpre.subset hmem
            revert this
            decide
  · intro he
    rcases hP with hPe | ⟨J, hJ⟩
    · rw [hPe] at he
      simp only [List.nil_append] at he
      exact hfne he
    · have : '/' ∈ "index".toList := by
        rw [← he, hJ]
        simp
      revert this
      decide

theorem slashPrefix_false_of_head (c : Char) (cs : List Char) (hc : c ≠ '/') :
    ("/".toList.isPrefixOf (c :: cs)) = false := by
  rw [slash_isPrefixOf_cons]
  exact beq_eq_false_iff_ne.mpr (fun h => hc h.symm)

theorem slashSuffix_true_of (l : List Char) (h : ['/'] <:+ l) :
    ("/".toList.isSuffixOf l) = true :=
  List.isSuffixOf_iff_suffix.mpr h

theorem slashSuffix_false_append (x f : List Char) (hfne : f ≠ [])
    (hf : ∀ c ∈ f, c ≠ '/') : ("/".toList.isSuffixOf (x ++ f)) = false := by
  show ("/".toList.reverse.isPrefixOf (x ++ f).reverse) = false
  rw [show ("/".toList.reverse) = ['/'] from rfl, List.reverse_append]
  cases hrev : f.reverse with
  | nil => exact absurd (by simpa using congrArg List.reverse hrev) hfne
  | cons c t =>
    rw [List.cons_append]
    refine slashPrefix_false_of_head c _ ?_
    have : c ∈ f := by
      rw [← List.mem_reverse, hrev]
      simp
    exact hf c this

/-- Computation of `generate_url_path` on a docs-relative path given as
slash-free, dot-free-irrelevant segments `ds` and a final file name
`f ++ ".md"`: the result is the applied base, a slash, the directory part,
and — unless `f` is `index`, which is collapsed away — the file segment with
a trailing slash. -/
theorem generateUrlPath_compute (ds : List (List Char)) (f basePath : List Char)
    (hds : ∀ d ∈ ds, d ≠ [] ∧ ∀ c ∈ d, c ≠ '/' ∧ c ≠ '\\')
    (hf : ∀ c ∈ f, c ≠ '/' ∧ c ≠ '\\') (hfne : f ≠ []) :
    generateUrlPath (joinSep ['/'] (ds ++ [f ++ ".md".toList])) basePath =
      (if pyRstripChar '/' basePath = [] ∨ pyRstripChar '/' basePath = ['/'] then []
       else pyRstripChar '/' basePath) ++
      '/' :: ((if ds.isEmpty then [] else joinSep ['/'] ds ++ ['/']) ++
        (if f = "index".toList then [] else f ++ ['/'])) := by
  have hmd_nb : ∀ c ∈ ".md".toList, (if c = '\\' then '/' else c) = c := by decide
  have hf_id : ∀ c ∈ f, (if c = '\\' then '/' else c) = c := by
    intro c hc
    rw [if_neg (hf c hc).2]
  obtain ⟨f0, ft, rfl⟩ := List.exists_cons_of_ne_nil hfne
  have hf0 : f0 ≠ '/' := (hf f0 (List.mem_cons_self _ _)).1
  cases ds with
  | nil =>
    have hrel : joinSep ['/'] (([] : List (List Char)) ++ [(f0 :: ft) ++ ".md".toList]) =
        ((f0 :: ft) ++ ".md".toList) := by
      simp [joinSep]
    rw [hrel]
    simp only [generateUrlPath]
    rw [map_id_of _ _ (by
      intro c hc
      rcases List.mem_append.mp hc with h1 | h1
      · exact hf_id c h1
      · exact hmd_nb c h1)]
    rw [show (".md".toList.isSuffixOf ((f0 :: ft) ++ ".md".toList)) = true from
      List.isSuffixOf_iff_suffix.mpr (List.suffix_append _ _)]
    simp only [eq_self_iff_true, if_true]
    rw [show pyDropRight 3 ((f0 :: ft) ++ ".md".toList) = f0 :: ft from by
      rw [show (3 : Nat) = (".md".toList).length from rfl]
      exact pyDropRight_append _ _]
    by_cases hidx : f0 :: ft = "index".toList
    · rw [hidx]
      rw [show ("/index".toList.isSuffixOf "index".toList || "index".toList == "index".toList) =
        true from by decide]
      simp only [eq_self_iff_true, if_true]
      rw [show pyRsplit1Head "index".toList "index".toList = [] from by decide]
      rw [show ("/".toList.isPrefixOf ([] : List Char)) = false from rfl]
      simp only [Bool.false_eq_true, if_false]
      rw [show ("/".toList.isSuffixOf ['/']) = true from by decide]
      simp only [eq_self_iff_true, if_true, List.isEmpty_nil, if_true, List.nil_append]
      by_cases hb : pyRstripChar '/' basePath = [] ∨ pyRstripChar '/' basePath = ['/']
      · rw [if_pos hb, if_pos hb]
        try simp
      · rw [if_neg hb, if_neg hb]
        try simp
    · have hbranch := index_branch_false [] (f0 :: ft) (Or.inl rfl)
        (fun c hc => (hf c hc).1) hidx
      simp only [List.nil_append] at hbranch
      rw [show ("/index".toList.isSuffixOf (f0 :: ft)
          || ((f0 :: ft) == "index".toList)) = false from by
        rw [Bool.or_eq_false_iff]
        exact ⟨Bool.eq_false_iff.mpr (fun h => hbranch.1 (List.isSuffixOf_iff_suffix.mp h)),
          beq_eq_false_iff_ne.mpr hbranch.2⟩]
      simp only [Bool.false_eq_true, if_false]
      rw [slashPrefix_false_of_head f0 ft hf0]
      simp only [Bool.false_eq_true, if_false]
      rw [show ('/' :: f0 :: ft) = ['/'] ++ f0 :: ft from rfl]
      rw [slashSuffix_false_append ['/'] (f0 :: ft) (by simp)
        (fun c hc => (hf c hc).1)]
      simp only [Bool.false_eq_true, if_false, List.isEmpty_nil, if_true, List.nil_append]
      rw [if_neg hidx]
      by_cases hb : pyRstripChar '/' basePath = [] ∨ pyRstripChar '/' basePath = ['/']
      · rw [if_pos hb, if_pos hb]
        try simp
      · rw [if_neg hb, if_neg hb]
        try simp
  | cons d rest =>
    have hdne : d ≠ [] := (hds d (List.mem_cons_self _ _)).1
    obtain ⟨d0, dt, rfl⟩ := List.exists_cons_of_ne_nil hdne
    have hd0 : d0 ≠ '/' := ((hds _ (List.mem_cons_self _ _)).2 d0 (List.mem_cons_self _ _)).1
    have hJS_head : ∃ Jt, joinSep ['/'] ((d0 :: dt) :: rest) = d0 :: Jt := by
      rw [joinSep_cons_eq]
      exact ⟨dt ++ _, rfl⟩
    obtain ⟨Jt, hJS⟩ := hJS_head
    have hJS_nb : ∀ c ∈ joinSep ['/'] ((d0 :: dt) :: rest), c ≠ '\\' := by
      intro c hc
      rcases mem_joinSep ['/'] _ c hc with h1 | ⟨l, hl, hcl⟩
      · intro he
        subst he
        revert h1
        decide
      · exact ((hds l hl).2 c hcl).2
    have hrel : joinSep ['/'] (((d0 :: dt) :: rest) ++ [(f0 :: ft) ++ ".md".toList]) =
        ((joinSep ['/'] ((d0 :: dt) :: rest) ++ ['/']) ++ (f0 :: ft)) ++ ".md".toList := by
      rw [joinSep_concat]
      simp [List.append_assoc]
    rw [hrel]
    simp only [generateUrlPath]
    rw [map_id_of _ _ (by
      intro c hc
      rcases List.mem_append.mp hc with h1 | h1
      · rcases List.mem_append.mp h1 with h2 | h2
        · rcases List.mem_append.mp h2 with h3 | h3
          · rw [if_neg (hJS_nb c h3)]
          · have : c = '/' := by simpa using h3
            subst this
            rfl
        · exact hf_id c h2
      · exact hmd_nb c h1)]
    rw [show (".md".toList.isSuffixOf
        (((joinSep ['/'] ((d0 :: dt) :: rest) ++ ['/']) ++ (f0 :: ft)) ++ ".md".toList)) =
        true from List.isSuffixOf_iff_suffix.mpr (List.suffix_append _ _)]
    simp only [eq_self_iff_true, if_true]
    rw [show pyDropRight 3 (((joinSep ['/'] ((d0 :: dt) :: rest) ++ ['/']) ++ (f0 :: ft)) ++
        ".md".toList) = (joinSep ['/'] ((d0 :: dt) :: rest) ++ ['/']) ++ (f0 :: ft) from by
      rw [show (3 : Nat) = (".md".toList).length from rfl]
      exact pyDropRight_append _ _]
    by_cases hidx : f0 :: ft = "index".toList
    · rw [hidx]
      have hsufidx : ("/index".toList.isSuffixOf
          ((joinSep ['/'] ((d0 :: dt) :: rest) ++ ['/']) ++ "index".toList)) = true := by
        apply List.isSuffixOf_iff_suffix.mpr
        exact ⟨joinSep ['/'] ((d0 :: dt) :: rest), by simp⟩
      rw [hsufidx]
      simp only [Bool.true_or, if_true]
      rw [show pyRsplit1Head ((joinSep ['/'] ((d0 :: dt) :: rest) ++ ['/']) ++ "index".toList)
          "index".toList = joinSep ['/'] ((d0 :: dt) :: rest) ++ ['/'] from by
        rw [pyRsplit1Head_of_suffix _ _ (by decide) ⟨_, rfl⟩]
        rw [show ("index".toList).length = ("index".toList).length from rfl]
        exact pyDropRight_append _ _]
      rw [show joinSep ['/'] ((d0 :: dt) :: rest) ++ ['/'] = d0 :: (Jt ++ ['/']) from by
        rw [hJS]; simp]
      rw [slashPrefix_false_of_head d0 _ hd0]
      simp only [Bool.false_eq_true, if_false]
      rw [slashSuffix_true_of _ ⟨'/' :: d0 :: Jt, by simp⟩]
      simp only [eq_self_iff_true, if_true, List.isEmpty_cons, Bool.false_eq_true, if_false]
      rw [show (d0 :: (Jt ++ ['/'])) = (d0 :: Jt) ++ ['/'] from by simp]
      rw [← hJS]
      by_cases hb : pyRstripChar '/' basePath = [] ∨ pyRstripChar '/' basePath = ['/']
      · rw [if_pos hb, if_pos hb]
        try simp
      · rw [if_neg hb, if_neg hb]
        try simp
    · have hbranch := index_branch_false (joinSep ['/'] ((d0 :: dt) :: rest) ++ ['/'])
        (f0 :: ft) (Or.inr ⟨_, rfl⟩) (fun c hc => (hf c hc).1) hidx
      rw [show ("/index".toList.isSuffixOf
            ((joinSep ['/'] ((d0 :: dt) :: rest) ++ ['/']) ++ (f0 :: ft))
          || (((joinSep ['/'] ((d0 :: dt) :: rest) ++ ['/']) ++ (f0 :: ft)) ==
            "index".toList)) = false from by
        rw [Bool.or_eq_false_iff]
        exact ⟨Bool.eq_false_iff.mpr (fun h => hbranch.1 (List.isSuffixOf_iff_suffix.mp h)),
          beq_eq_false_iff_ne.mpr hbranch.2⟩]
      simp only [Bool.false_eq_true, if_false]
      rw [show (joinSep ['/'] ((d0 :: dt) :: rest) ++ ['/']) ++ (f0 :: ft) =
        d0 :: ((Jt ++ ['/']) ++ (f0 :: ft)) from by rw [hJS]; simp]
      rw [slashPrefix_false_of_head d0 _ hd0]
      simp only [Bool.false_eq_true, if_false]
      rw [show ('/' :: d0 :: ((Jt ++ ['/']) ++ (f0 :: ft))) =
        ('/' :: d0 :: (Jt ++ ['/'])) ++ (f0 :: ft) from by simp]
      rw [slashSuffix_false_append _ (f0 :: ft) (by simp) (fun c hc => (hf c hc).1)]
      simp only [Bool.false_eq_true, if_false, List.isEmpty_cons]
      rw [show (('/' :: d0 :: (Jt ++ ['/'])) ++ (f0 :: ft)) ++ ['/'] =
        '/' :: (((d0 :: Jt) ++ ['/']) ++ ((f0 :: ft) ++ ['/'])) from by simp]
      rw [← hJS]
      rw [if_neg hidx]
      by_cases hb : pyRstripChar '/' basePath = [] ∨ pyRstripChar '/' basePath = ['/']
      · rw [if_pos hb, if_pos hb]
        try simp
      · rw [if_neg hb, if_neg hb]
        try simp

theorem slash_suffix_shape (b X : List Char) (h : X = [] ∨ ∃ Y, X = Y ++ ['/']) :
    ['/'] <:+ b ++ '/' :: X := by
  rcases h with rfl | ⟨Y, rfl⟩
  · exact ⟨b, rfl⟩
  · exact ⟨b ++ '/' :: Y, by simp⟩

/-- C2 counterexample: the claim's universal containment properties fail on
legal Markdown file names — `a.md.md` leaves `.md` in its URL path, and
`index/index.md` (an `index.md` file) leaves `index` in its URL path. -/
theorem claim_C2_counterexample :
    generateUrlPath "a.md.md".toList "/".toList = "/a.md/".toList ∧
    ".md".toList <:+: generateUrlPath "a.md.md".toList "/".toList ∧
    generateUrlPath "index/index.md".toList "/".toList = "/index/".toList ∧
    "index".toList <:+: generateUrlPath "index/index.md".toList "/".toList := by
  refine ⟨by decide, by decide, ?_, ?_⟩ <;> decide

/-- C2 (amended): for every docs-relative Markdown path whose directory
segments and file stem are nonempty and free of `/`, `\` and `.`, and every
base path that is empty or starts with `/` and is dot-free, the derived URL
path starts and ends with `/` and contains neither `.md` nor `.html`; a file
named `index.md` contributes no segment of its own — the URL is the base plus
the directory path (root `index.md` → `/`) — while any other stem `f` yields
`…/f/`; in particular `guide/index.md → /guide/`, `index.md → /`, and
`guide/intro.md → /guide/intro/`. -/
theorem claim_C2_amended (ds : List (List Char)) (f basePath : List Char)
    (hds : ∀ d ∈ ds, d ≠ [] ∧ ∀ c ∈ d, c ≠ '/' ∧ c ≠ '\\' ∧ c ≠ '.')
    (hf : ∀ c ∈ f, c ≠ '/' ∧ c ≠ '\\' ∧ c ≠ '.') (hfne : f ≠ [])
    (hbase : basePath = [] ∨
      (("/".toList.isPrefixOf basePath) = true ∧ ∀ c ∈ basePath, c ≠ '.')) :
    ("/".toList.isPrefixOf
      (generateUrlPath (joinSep ['/'] (ds ++ [f ++ ".md".toList])) basePath)) = true ∧
    ("/".toList.isSuffixOf
      (generateUrlPath (joinSep ['/'] (ds ++ [f ++ ".md".toList])) basePath)) = true ∧
    ¬(".md".toList <:+:
      generateUrlPath (joinSep ['/'] (ds ++ [f ++ ".md".toList])) basePath) ∧
    ¬(".html".toList <:+:
      generateUrlPath (joinSep ['/'] (ds ++ [f ++ ".md".toList])) basePath) ∧
    (f = "index".toList →
      generateUrlPath (joinSep ['/'] (ds ++ [f ++ ".md".toList])) basePath =
        (if pyRstripChar '/' basePath = [] ∨ pyRstripChar '/' basePath = ['/'] then []
         else pyRstripChar '/' basePath) ++
        '/' :: (if ds.isEmpty then [] else joinSep ['/'] ds ++ ['/'])) ∧
    (f ≠ "index".toList →
      generateUrlPath (joinSep ['/'] (ds ++ [f ++ ".md".toList])) basePath =
        (if pyRstripChar '/' basePath = [] ∨ pyRstripChar '/' basePath = ['/'] then []
         else pyRstripChar '/' basePath) ++
        '/' :: ((if ds.isEmpty then [] else joinSep ['/'] ds ++ ['/']) ++ (f ++ ['/']))) ∧
    generateUrlPath "guide/index.md".toList "/".toList = "/guide/".toList ∧
    generateUrlPath "index.md".toList "/".toList = "/".toList ∧
    generateUrlPath "guide/intro.md".toList "/".toList = "/guide/intro/".toList := by
  have hds' : ∀ d ∈ ds, d ≠ [] ∧ ∀ c ∈ d, c ≠ '/' ∧ c ≠ '\\' :=
    fun d hd => ⟨(hds d hd).1, fun c hc => ⟨((hds d hd).2 c hc).1, ((hds d hd).2 c hc).2.1⟩⟩
  have hf' : ∀ c ∈ f, c ≠ '/' ∧ c ≠ '\\' :=
    fun c hc => ⟨(hf c hc).1, (hf c hc).2.1⟩
  have hcompute := generateUrlPath_compute ds f basePath hds' hf' hfne
  rw [hcompute]
  have hbne : (¬(pyRstripChar '/' basePath = [] ∨ pyRstripChar '/' basePath = ['/'])) →
      ∃ t, pyRstripChar '/' basePath = '/' :: t := by
    intro hb
    have hbne2 : pyRstripChar '/' basePath ≠ [] := fun h => hb (Or.inl h)
    obtain ⟨c, t, hct⟩ := List.exists_cons_of_ne_nil hbne2
    rcases hbase with rfl | ⟨hpre, hdot⟩
    · exact absurd (by rfl : pyRstripChar '/' ([] : List Char) = []) hbne2
    · have hpb : pyRstripChar '/' basePath <+: basePath := pyRstripChar_prefixOf _ _
      obtain ⟨r, hr⟩ := hpb
      rw [hct] at hr
      cases hb2 : basePath with
      | nil =>
        rw [hb2] at hr
        exact absurd hr (by simp)
      | cons b0 bt =>
        rw [hb2, slash_isPrefixOf_cons] at hpre
        have hb0 : b0 = '/' := (beq_iff_eq.mp hpre).symm
        rw [hb2] at hr
        have hc : c = b0 ∧ t ++ r = bt := by
          have h2 := hr
          simp only [List.cons_append, List.cons.injEq] at h2
          exact h2
        exact ⟨t, by rw [← hb2, hct, hc.1, hb0]⟩
  have hmem : ∀ c ∈ (if pyRstripChar '/' basePath = [] ∨ pyRstripChar '/' basePath = ['/']
      then ([] : List Char) else pyRstripChar '/' basePath) ++
      '/' :: ((if ds.isEmpty then [] else joinSep ['/'] ds ++ ['/']) ++
        (if f = "index".toList then [] else f ++ ['/'])), c ≠ '.' := by
    intro c hc
    rcases List.mem_append.mp hc with h1 | h1
    · by_cases hb : pyRstripChar '/' basePath = [] ∨ pyRstripChar '/' basePath = ['/']
      · rw [if_pos hb] at h1
        cases h1
      · rw [if_neg hb] at h1
        rcases hbase with rfl | ⟨hpre, hdot⟩
        · exact absurd (by rfl : pyRstripChar '/' ([] : List Char) = [])
            (fun h => hb (Or.inl h))
        · exact hdot c ((pyRstripChar_prefixOf '/' basePath).subset h1)
    · rcases List.mem_cons.mp h1 with rfl | h2
      · decide
      rcases List.mem_append.mp h2 with h3 | h3
      · by_cases hde : ds.isEmpty
        · rw [if_pos hde] at h3
          cases h3
        · rw [if_neg hde] at h3
          rcases List.mem_append.mp h3 with h4 | h4
          · rcases mem_joinSep ['/'] ds c h4 with h5 | ⟨l, hl, hcl⟩
            · intro he
              subst he
              revert h5
              decide
            · exact ((hds l hl).2 c hcl).2.2
          · intro he
            subst he
            revert h4
            decide
      · by_cases hidx : f = "index".toList
        · rw [if_pos hidx] at h3
          cases h3
        · rw [if_neg hidx] at h3
          rcases List.mem_append.mp h3 with h4 | h4
          · exact (hf c h4).2.2
          · intro he
            subst he
            revert h4
            decide
  refine ⟨?_, ?_, ?_, ?_, ?_, ?_, by decide, by decide, by decide⟩
  · by_cases hb : pyRstripChar '/' basePath = [] ∨ pyRstripChar '/' basePath = ['/']
    · rw [if_pos hb]
      simp [List.isPrefixOf]
    · rw [if_neg hb]
      obtain ⟨t, ht⟩ := hbne hb
      rw [ht, List.cons_append, slash_isPrefixOf_cons]
      simp
  · apply slashSuffix_true_of
    apply slash_suffix_shape
    by_cases hde : ds.isEmpty
    · by_cases hidx : f = "index".toList
      · rw [if_pos hde, if_pos hidx]
        exact Or.inl rfl
      · rw [if_pos hde, if_neg hidx]
        exact Or.inr ⟨f, by simp⟩
    · by_cases hidx : f = "index".toList
      · rw [if_neg hde, if_pos hidx]
        exact Or.inr ⟨joinSep ['/'] ds, by simp⟩
      · rw [if_neg hde, if_neg hidx]
        exact Or.inr ⟨(joinSep ['/'] ds ++ ['/']) ++ f, by simp⟩
  · intro hinf
    exact hmem '.' (hinf.subset (by decide)) rfl
  · intro hinf
    exact hmem '.' (hinf.subset (by decide)) rfl
  · intro hidx
    rw [if_pos hidx]
    simp
  · intro hidx
    rw [if_neg hidx]

/-- C2 witness: the amended theorem applied to `guide/intro.md` with base
path `/base`. -/
theorem claim_C2_witness :
    ("/".toList.isPrefixOf
      (generateUrlPath (joinSep ['/'] (["guide".toList] ++ ["intro".toList ++ ".md".toList]))
        "/base".toList)) = true ∧
    ("/".toList.isSuffixOf
      (generateUrlPath (joinSep ['/'] (["guide".toList] ++ ["intro".toList ++ ".md".toList]))
        "/base".toList)) = true ∧
    ¬(".md".toList <:+:
      generateUrlPath (joinSep ['/'] (["guide".toList] ++ ["intro".toList ++ ".md".toList]))
        "/base".toList) ∧
    generateUrlPath (joinSep ['/'] (["guide".toList] ++ ["intro".toList ++ ".md".toList]))
        "/base".toList = "/base/guide/intro/".toList := by
  have h := claim_C2_amended ["guide".toList] "intro".toList "/base".toList
    (by decide) (by decide) (by decide) (Or.inr (by decide))
  refine ⟨h.1, h.2.1, h.2.2.1, ?_⟩
  rw [h.2.2.2.2.2.1 (by decide)]
  decide

/-! ### Heading anchors (`src/jinpress/markdown/processor.py`, `_generate_anchor`) -/

/-- The regex class `\w` on ASCII text: alphanumeric or underscore. -/
def isPyWordAscii (c : Char) : Bool := c.isAlphanum || c == '_'

/-- `MarkdownProcessor._generate_anchor` (`processor.py`, lines 266–285):
lowercase, `\s+` → `-`, remove `[^\w\-]` (note: `\w` KEEPS underscores),
collapse `-+`, strip leading/trailing `-`; `\w`/`\s` are modelled on ASCII
text. -/
def generateAnchor (text : List Char) : List Char :=
  pyStripChar '-'
    (subRuns (· == '-') '-'
      ((subRuns isPySpace '-' (text.map Char.toLower)).filter
        (fun c => isPyWordAscii c || c == '-')))

/-- Modelled from the spec as written (C5): lowercase, internal whitespace
runs → hyphen, strip every character that is neither alphanumeric NOR a
hyphen, collapse repeated hyphens, trim hyphens. -/
def specAnchorVerbatim (text : List Char) : List Char :=
  pyStripChar '-'
    (subRuns (· == '-') '-'
      ((subRuns isPySpace '-' (pyTrim (text.map Char.toLower))).filter
        (fun c => c.isAlphanum || c == '-')))

/-- Modelled from the spec, amended (C5): as `specAnchorVerbatim` but keeping
underscores, the one character the source's `[^\w\-]` additionally retains. -/
def specAnchorAmended (text : List Char) : List Char :=
  pyStripChar '-'
    (subRuns (· == '-') '-'
      ((subRuns isPySpace '-' (pyTrim (text.map Char.toLower))).filter
        (fun c => c.isAlphanum || c == '_' || c == '-')))

theorem subRunsAux_all_sat (p : Char → Bool) (r : Char) :
    ∀ w : List Char, (∀ c ∈ w, p c = true) → subRunsAux p r true w = [] := by
  intro w
  induction w with
  | nil => intro _; rfl
  | cons c cs ih =>
    intro h
    simp only [subRunsAux, h c (List.mem_cons_self _ _), if_true]
    exact ih (fun d hd => h d (List.mem_cons_of_mem _ hd))

theorem subRunsAux_true_sat_append (p : Char → Bool) (r : Char) (m : List Char) :
    ∀ w : List Char, (∀ c ∈ w, p c = true) →
      subRunsAux p r true (w ++ m) = subRunsAux p r true m := by
  intro w
  induction w with
  | nil => intro _; rfl
  | cons c cs ih =>
    intro h
    simp only [List.cons_append, subRunsAux, h c (List.mem_cons_self _ _), if_true]
    exact ih (fun d hd => h d (List.mem_cons_of_mem _ hd))

theorem dropWhile_fix_head (p : Char → Bool) (c : Char) (cs : List Char)
    (h : (c :: cs).dropWhile p = c :: cs) : p c = false := by
  cases hp : p c with
  | false => rfl
  | true =>
    rw [List.dropWhile_cons, hp, if_pos rfl] at h
    have hlen := congrArg List.length h
    have hle : (cs.dropWhile p).length ≤ cs.length := (List.dropWhile_sublist _).length_le
    simp only [List.length_cons] at hlen
    omega

theorem subRunsAux_state_irrelevant (p : Char → Bool) (r : Char) (m : List Char)
    (hm : m.dropWhile p = m) : subRunsAux p r true m = subRunsAux p r false m := by
  cases m with
  | nil => rfl
  | cons c cs =>
    have hc := dropWhile_fix_head p c cs hm
    simp only [subRunsAux, hc, Bool.false_eq_true, if_false]

theorem subRuns_sat_append (p : Char → Bool) (r : Char) (w m : List Char)
    (hw : ∀ c ∈ w, p c = true) (hm : m.dropWhile p = m) :
    subRuns p r (w ++ m) = (if w.isEmpty then [] else [r]) ++ subRuns p r m := by
  cases w with
  | nil => simp [subRuns]
  | cons c w' =>
    simp only [subRuns, List.cons_append, subRunsAux, hw c (List.mem_cons_self _ _), if_true,
      List.isEmpty_cons, Bool.false_eq_true, if_false, List.append_eq]
    rw [subRunsAux_true_sat_append p r m w' (fun d hd => hw d (List.mem_cons_of_mem _ hd)),
      subRunsAux_state_irrelevant p r m hm]
    rfl

theorem getLastElim_cons_irrel (p : Char → Bool) (b b' : Bool) (d : Char) (t2 : List Char) :
    (d :: t2).getLast?.elim b p = (d :: t2).getLast?.elim b' p := by
  rw [List.getLast?_eq_getLast _ (by simp)]
  rfl

theorem subRunsAux_append_sat (p : Char → Bool) (r : Char) (w : List Char)
    (hw : ∀ c ∈ w, p c = true) (hwne : w ≠ []) :
    ∀ (t : List Char) (b : Bool),
      subRunsAux p r b (t ++ w) =
        subRunsAux p r b t ++ (if (t.getLast?.elim b p) = true then [] else [r]) := by
  intro t
  induction t with
  | nil =>
    intro b
    cases b with
    | true =>
      simp only [List.nil_append, subRunsAux_all_sat p r w hw, List.getLast?_nil,
        Option.elim_none, if_pos rfl]
      rfl
    | false =>
      obtain ⟨c, w', rfl⟩ := List.exists_cons_of_ne_nil hwne
      simp only [List.nil_append, subRunsAux, hw c (List.mem_cons_self _ _), if_true,
        List.getLast?_nil, Option.elim_none, Bool.false_eq_true, if_false]
      rw [subRunsAux_all_sat p r w' (fun d hd => hw d (List.mem_cons_of_mem _ hd))]
  | cons c t' ih =>
    intro b
    cases hpc : p c with
    | true =>
      cases b with
      | true =>
        simp only [List.cons_append, subRunsAux, hpc, if_true, eq_self_iff_true,
          List.append_eq]
        rw [ih true]
        cases t' with
        | nil => simp [List.getLast?_singleton, hpc]
        | cons d t2 =>
          rw [List.getLast?_cons_cons]
      | false =>
        simp only [List.cons_append, subRunsAux, hpc, if_true, Bool.false_eq_true, if_false,
          List.append_eq]
        rw [ih true]
        cases t' with
        | nil => simp [List.getLast?_singleton, hpc]
        | cons d t2 =>
          rw [List.getLast?_cons_cons, getLastElim_cons_irrel p true false d t2]
    | false =>
      simp only [List.cons_append, subRunsAux, hpc, Bool.false_eq_true, if_false,
        List.append_eq]
      rw [ih false]
      cases t' with
      | nil => simp [List.getLast?_singleton, hpc]
      | cons d t2 =>
        rw [List.getLast?_cons_cons, getLastElim_cons_irrel p false b d t2]

theorem dropWhile_subRunsAux_true_eq_false (p : Char → Bool) (r : Char) (hr : p r = true) :
    ∀ F : List Char,
      (subRunsAux p r true F).dropWhile p = (subRunsAux p r false F).dropWhile p := by
  intro F
  cases F with
  | nil => rfl
  | cons c cs =>
    cases hpc : p c with
    | true =>
      simp only [subRunsAux, hpc, eq_self_iff_true, if_true, Bool.false_eq_true, if_false,
        List.dropWhile_cons, hr]
    | false =>
      simp only [subRunsAux, hpc, Bool.false_eq_true, if_false]

theorem dropWhile_idem (p : Char → Bool) (l : List Char) :
    (l.dropWhile p).dropWhile p = l.dropWhile p := by
  induction l with
  | nil => rfl
  | cons c cs ih =>
    cases hpc : p c with
    | true => simp only [List.dropWhile_cons, hpc, if_true]; exact ih
    | false => simp only [List.dropWhile_cons, hpc, Bool.false_eq_true, if_false]

theorem dropWhile_head?_sat_false (p : Char → Bool) (l : List Char) (x : Char)
    (h : (l.dropWhile p).head? = some x) : p x = false := by
  cases hdw : l.dropWhile p with
  | nil => rw [hdw] at h; exact absurd h (by simp)
  | cons y ys =>
    rw [hdw] at h
    have hyx : y = x := by simpa using h
    have hfix : (y :: ys).dropWhile p = y :: ys := by
      have h2 := dropWhile_idem p l
      rw [hdw] at h2
      exact h2
    rw [← hyx]
    exact dropWhile_fix_head p y ys hfix

theorem getLastElim_reverse_dropWhile (p : Char → Bool) (l : List Char) :
    ((l.dropWhile p).reverse.getLast?.elim false p) = false := by
  rw [List.getLast?_reverse]
  cases hd : (l.dropWhile p).head? with
  | none => rfl
  | some x => simp [dropWhile_head?_sat_false p l x hd]

theorem pyStripChar_eq_of_dropWhile_eq (c : Char) (l₁ l₂ : List Char)
    (h : l₁.dropWhile (· == c) = l₂.dropWhile (· == c)) :
    pyStripChar c l₁ = pyStripChar c l₂ := by
  unfold pyStripChar
  rw [h]

theorem pyStripChar_cons_self (c : Char) (l : List Char) :
    pyStripChar c (c :: l) = pyStripChar c l := by
  apply pyStripChar_eq_of_dropWhile_eq
  simp [List.dropWhile_cons]

theorem pyStripChar_append_self (c : Char) (l : List Char) :
    pyStripChar c (l ++ [c]) = pyStripChar c l := by
  unfold pyStripChar
  rw [List.dropWhile_append]
  cases hd : (l.dropWhile (· == c)).isEmpty with
  | true =>
    simp only [eq_self_iff_true, if_true]
    rw [List.isEmpty_iff.mp hd]
    simp
  | false =>
    simp only [Bool.false_eq_true, if_false]
    simp [List.reverse_append, List.dropWhile_cons]

theorem pyStripChar_collapse_cons (r : Char) (F : List Char) :
    pyStripChar r (subRuns (· == r) r (r :: F)) = pyStripChar r (subRuns (· == r) r F) := by
  have h1 : subRuns (· == r) r (r :: F) = r :: subRunsAux (· == r) r true F := by
    simp [subRuns, subRunsAux]
  rw [h1, pyStripChar_cons_self]
  exact pyStripChar_eq_of_dropWhile_eq r _ _
    (dropWhile_subRunsAux_true_eq_false (· == r) r (by simp) F)

theorem subRuns_rstrip_split (p : Char → Bool) (r : Char) (m : List Char) :
    subRuns p r m =
      subRuns p r (m.reverse.dropWhile p).reverse ++
        (if (m.reverse.takeWhile p).isEmpty then [] else [r]) := by
  have hsplit : m = (m.reverse.dropWhile p).reverse ++ (m.reverse.takeWhile p).reverse := by
    conv_lhs => rw [← m.reverse_reverse, ← List.takeWhile_append_dropWhile p m.reverse]
    rw [List.reverse_append]
  cases hw2 : m.reverse.takeWhile p with
  | nil =>
    conv_lhs => rw [hsplit]
    rw [hw2]
    simp
  | cons c w2' =>
    conv_lhs => rw [hsplit]
    rw [hw2]
    have happ := subRunsAux_append_sat p r (c :: w2').reverse
      (fun d hd =>
        List.mem_takeWhile_imp (show d ∈ m.reverse.takeWhile p by
          rw [hw2]; exact List.mem_reverse.mp hd))
      (by simp) ((m.reverse.dropWhile p).reverse) false
    rw [show subRuns p r ((m.reverse.dropWhile p).reverse ++ (c :: w2').reverse) =
      subRunsAux p r false ((m.reverse.dropWhile p).reverse ++ (c :: w2').reverse) from rfl]
    rw [happ, getLastElim_reverse_dropWhile p m.reverse]
    simp [subRuns]

theorem subRuns_trim_decomp (p : Char → Bool) (r : Char) (L : List Char) :
    subRuns p r L =
      (if (L.takeWhile p).isEmpty then [] else [r]) ++
        (subRuns p r ((L.dropWhile p).reverse.dropWhile p).reverse ++
          (if ((L.dropWhile p).reverse.takeWhile p).isEmpty then [] else [r])) := by
  have step1 : subRuns p r L =
      (if (L.takeWhile p).isEmpty then [] else [r]) ++ subRuns p r (L.dropWhile p) := by
    conv_lhs => rw [← List.takeWhile_append_dropWhile p L]
    exact subRuns_sat_append p r _ _ (fun c hc => List.mem_takeWhile_imp hc)
      (dropWhile_idem p L)
  rw [step1, subRuns_rstrip_split p r (L.dropWhile p)]

theorem filter_hyphOpt (q : Char → Bool) (hq : q '-' = true) (b : Bool) :
    (if b = true then [] else ['-']).filter q = (if b = true then [] else ['-']) := by
  cases b with
  | true => rfl
  | false => simp [hq]

theorem stripCollapse_append_hyph (Y : List Char) :
    pyStripChar '-' (subRuns (· == '-') '-' (Y ++ ['-'])) =
      pyStripChar '-' (subRuns (· == '-') '-' Y) := by
  have happ := subRunsAux_append_sat (· == '-') '-' ['-'] (by simp) (by simp) Y false
  rw [show subRuns (· == '-') '-' (Y ++ ['-']) =
    subRunsAux (· == '-') '-' false (Y ++ ['-']) from rfl, happ]
  cases hcond : (Y.getLast?.elim false (· == '-')) with
  | true =>
    simp only [eq_self_iff_true, if_true, List.append_nil]
    simp [subRuns]
  | false =>
    simp only [Bool.false_eq_true, if_false]
    rw [pyStripChar_append_self]
    rfl

theorem stripCollapse_optL (F : List Char) (b1 : Bool) :
    pyStripChar '-' (subRuns (· == '-') '-' ((if b1 = true then [] else ['-']) ++ F)) =
      pyStripChar '-' (subRuns (· == '-') '-' F) := by
  cases b1 with
  | true => simp
  | false =>
    simp only [Bool.false_eq_true, if_false, List.singleton_append]
    exact pyStripChar_collapse_cons '-' F

theorem stripCollapse_opt (F : List Char) (b1 b2 : Bool) :
    pyStripChar '-' (subRuns (· == '-') '-'
      ((if b1 = true then [] else ['-']) ++ (F ++ (if b2 = true then [] else ['-'])))) =
      pyStripChar '-' (subRuns (· == '-') '-' F) := by
  cases b2 with
  | true =>
    simp only [eq_self_iff_true, if_true, List.append_nil]
    exact stripCollapse_optL F b1
  | false =>
    simp only [Bool.false_eq_true, if_false]
    rw [← List.append_assoc]
    exact (stripCollapse_append_hyph _).trans (stripCollapse_optL F b1)

theorem generateAnchor_eq_specAnchorAmended (text : List Char) :
    generateAnchor text = specAnchorAmended text := by
  unfold generateAnchor specAnchorAmended
  have hpred : (fun c => isPyWordAscii c || c == '-') =
      (fun c => c.isAlphanum || c == '_' || c == '-') := rfl
  have htrim : pyTrim (text.map Char.toLower) =
      (((text.map Char.toLower).dropWhile isPySpace).reverse.dropWhile isPySpace).reverse := rfl
  rw [hpred, htrim, subRuns_trim_decomp isPySpace '-' (text.map Char.toLower),
    List.filter_append, List.filter_append,
    filter_hyphOpt _ (by decide), filter_hyphOpt _ (by decide)]
  exact stripCollapse_opt _ _ _

theorem mem_subRunsAux (p : Char → Bool) (r : Char) :
    ∀ (b : Bool) (l : List Char) (c : Char), c ∈ subRunsAux p r b l → c = r ∨ c ∈ l := by
  intro b l
  induction l generalizing b with
  | nil => intro c h; exact absurd h (by simp [subRunsAux])
  | cons d cs ih =>
    intro c h
    cases hpd : p d with
    | true =>
      cases b with
      | true =>
        simp only [subRunsAux, hpd, eq_self_iff_true, if_true] at h
        rcases ih true c h with h1 | h1
        · exact Or.inl h1
        · exact Or.inr (List.mem_cons_of_mem _ h1)
      | false =>
        simp only [subRunsAux, hpd, if_true, Bool.false_eq_true, if_false] at h
        rcases List.mem_cons.mp h with h1 | h1
        · exact Or.inl h1
        · rcases ih true c h1 with h2 | h2
          · exact Or.inl h2
          · exact Or.inr (List.mem_cons_of_mem _ h2)
    | false =>
      simp only [subRunsAux, hpd, Bool.false_eq_true, if_false] at h
      rcases List.mem_cons.mp h with h1 | h1
      · exact Or.inr (by rw [h1]; exact List.mem_cons_self _ _)
      · rcases ih false c h1 with h2 | h2
        · exact Or.inl h2
        · exact Or.inr (List.mem_cons_of_mem _ h2)

theorem mem_pyStripChar (ch : Char) (l : List Char) (c : Char)
    (h : c ∈ pyStripChar ch l) : c ∈ l := by
  unfold pyStripChar at h
  rw [List.mem_reverse] at h
  have h2 := (List.dropWhile_sublist _).subset h
  rw [List.mem_reverse] at h2
  exact (List.dropWhile_sublist _).subset h2

theorem mem_generateAnchor (text : List Char) (c : Char) (h : c ∈ generateAnchor text) :
    ((c.isAlphanum || c == '_') || c == '-') = true ∧
      (c = '-' ∨ ∃ x ∈ text, c = x.toLower) := by
  unfold generateAnchor at h
  have h1 := mem_pyStripChar '-' _ c h
  rcases mem_subRunsAux (· == '-') '-' false _ c h1 with h2 | h2
  · subst h2
    exact ⟨by decide, Or.inl rfl⟩
  · have h3 := List.mem_filter.mp h2
    have h4 := h3.2
    simp only [isPyWordAscii] at h4
    refine ⟨h4, ?_⟩
    rcases mem_subRunsAux isPySpace '-' false _ c h3.1 with h5 | h5
    · exact Or.inl h5
    · rcases List.mem_map.mp h5 with ⟨x, hx, hcx⟩
      exact Or.inr ⟨x, hx, hcx.symm⟩

theorem ascii_toLower_not_upper :
    ∀ n : Nat, n < 128 → ((Char.ofNat n).toLower.isUpper) = false := by decide

theorem ascii_toLower_lt :
    ∀ n : Nat, n < 128 → ((Char.ofNat n).toLower.toNat) < 128 := by decide

theorem ascii_word_not_space :
    ∀ n : Nat, n < 128 →
      (((Char.ofNat n).isAlphanum || (Char.ofNat n) == '_') || (Char.ofNat n) == '-') = true →
        isPySpace (Char.ofNat n) = false := by decide

/-- **C5, counterexample.** The claim says every character that is neither
alphanumeric nor a hyphen is stripped, but the source's removal class is
`[^\w\-]` and `\w` matches the underscore: for the heading text `a_b` the
generated anchor is `a_b`, while the claim's described pipeline yields `ab`. -/
theorem claim_C5_counterexample :
    generateAnchor ('a' :: '_' :: 'b' :: []) = 'a' :: '_' :: 'b' :: [] ∧
    specAnchorVerbatim ('a' :: '_' :: 'b' :: []) = 'a' :: 'b' :: [] ∧
    generateAnchor ('a' :: '_' :: 'b' :: []) ≠
      specAnchorVerbatim ('a' :: '_' :: 'b' :: []) := by decide

/-- **C5, amended.** For every ASCII heading text, the generated anchor equals
the result of lowercasing, trimming outer whitespace, replacing each internal
whitespace run with a hyphen, stripping every character that is neither
alphanumeric, underscore nor hyphen, collapsing repeated hyphens and trimming
leading/trailing hyphens; every character of the anchor is alphanumeric, a
hyphen or an underscore, is not whitespace and is not an uppercase letter. -/
theorem claim_C5_amended (text : List Char)
    (hascii : ∀ c ∈ text, c.toNat < 128) :
    generateAnchor text = specAnchorAmended text ∧
    ∀ c ∈ generateAnchor text,
      (c.isAlphanum = true ∨ c = '-' ∨ c = '_') ∧ isPySpace c = false ∧ c.isUpper = false := by
  refine ⟨generateAnchor_eq_specAnchorAmended text, ?_⟩
  intro c hc
  obtain ⟨hpred, hsrc⟩ := mem_generateAnchor text c hc
  rcases hsrc with rfl | ⟨x, hx, rfl⟩
  · exact ⟨Or.inr (Or.inl rfl), by decide, by decide⟩
  · have hxa : x.toNat < 128 := hascii x hx
    have hup : (x.toLower).isUpper = false := by
      have h := ascii_toLower_not_upper x.toNat hxa
      rw [Char.ofNat_toNat] at h
      exact h
    have hclt : (x.toLower).toNat < 128 := by
      have h := ascii_toLower_lt x.toNat hxa
      rw [Char.ofNat_toNat] at h
      exact h
    have hsp : isPySpace x.toLower = false := by
      have h := ascii_word_not_space (x.toLower).toNat hclt
      rw [Char.ofNat_toNat] at h
      exact h hpred
    refine ⟨?_, hsp, hup⟩
    simp only [Bool.or_eq_true, beq_iff_eq] at hpred
    rcases hpred with (h1 | h1) | h1
    · exact Or.inl h1
    · exact Or.inr (Or.inr h1)
    · exact Or.inr (Or.inl h1)

/-- A concrete YAML collaborator: the malformed block `title: [bad` raises a
`yaml.YAMLError`, everything else parses to a one-entry mapping. -/
def yamlStub (y : List Char) : YamlOutcome :=
  if y = "title: [bad".toList then YamlOutcome.err
  else YamlOutcome.val [("title".toList, "ok".toList)]

theorem processMarkdownFiles_all_ok (py : List Char → YamlOutcome) (files : List MdFile)
    (hok : ∀ f ∈ files, ∃ c, f.readResult = Except.ok c) :
    (processMarkdownFiles py files).1.length = files.length ∧
    (processMarkdownFiles py files).2 = [] := by
  induction files with
  | nil => exact ⟨rfl, rfl⟩
  | cons f fs ih =>
    obtain ⟨c, hc⟩ := hok f (List.mem_cons_self _ _)
    have hpf : ∃ p, processFile py f = Except.ok p := by
      unfold processFile
      rw [hc]
      exact ⟨_, rfl⟩
    obtain ⟨p, hp⟩ := hpf
    have ih2 := ih (fun g hg => hok g (List.mem_cons_of_mem _ hg))
    simp [processMarkdownFiles, hp, ih2.1, ih2.2]

theorem generatePagesWarnings_all_ok (render : PageModel → Except (List Char) (List Char))
    (hrender : ∀ p, ∃ o, render p = Except.ok o) :
    ∀ ps, generatePagesWarnings render ps = [] := by
  intro ps
  induction ps with
  | nil => rfl
  | cons p ps ih =>
    obtain ⟨o, ho⟩ := hrender p
    simp only [generatePagesWarnings, ho]
    exact ih

/-- **C3, counterexample.** The claim demands that malformed front-matter YAML
fail with a `ProcessingError` and surface as a build warning naming the file.
In the source, `extract_frontmatter` catches `yaml.YAMLError` and silently
substitutes an empty mapping, so the bad file processes cleanly: a build over
a malformed file and a good file ends with two pages built and an EMPTY
warnings list (no `ProcessingError` type exists in the repository at all). -/
theorem claim_C3_counterexample :
    extractFrontmatter yamlStub ("---\ntitle: [bad\n---\n\n# C\n".toList) =
      ([], "# C\n".toList) ∧
    (buildModel yamlStub (fun _ => Except.ok []) true
        [⟨"docs/bad.md".toList, Except.ok ("---\ntitle: [bad\n---\n\n# C\n".toList)⟩,
         ⟨"docs/good.md".toList, Except.ok ("hello".toList)⟩] none true).success = true ∧
    (buildModel yamlStub (fun _ => Except.ok []) true
        [⟨"docs/bad.md".toList, Except.ok ("---\ntitle: [bad\n---\n\n# C\n".toList)⟩,
         ⟨"docs/good.md".toList, Except.ok ("hello".toList)⟩] none true).pagesBuilt = 2 ∧
    (buildModel yamlStub (fun _ => Except.ok []) true
        [⟨"docs/bad.md".toList, Except.ok ("---\ntitle: [bad\n---\n\n# C\n".toList)⟩,
         ⟨"docs/good.md".toList, Except.ok ("hello".toList)⟩] none true).warnings = [] ∧
    (buildModel yamlStub (fun _ => Except.ok []) true
        [⟨"docs/bad.md".toList, Except.ok ("---\ntitle: [bad\n---\n\n# C\n".toList)⟩,
         ⟨"docs/good.md".toList, Except.ok ("hello".toList)⟩] none true).errors = [] := by
  decide

/-- **C3, amended.** Graceful degradation is stronger (and quieter) than
claimed: a malformed front-matter block never fails at all. If every file
reads and every page renders, the build succeeds with one page per file and
NO warnings — even when front-matter YAML is malformed — because a matched
front-matter block whose YAML parse raises is replaced by the empty mapping
with the body kept. -/
theorem claim_C3_amended (py : List Char → YamlOutcome)
    (render : PageModel → Except (List Char) (List Char))
    (files : List MdFile) (clean : Bool)
    (hok : ∀ f ∈ files, ∃ c, f.readResult = Except.ok c)
    (hrender : ∀ p, ∃ o, render p = Except.ok o) :
    (buildModel py render true files none clean).success = true ∧
    (buildModel py render true files none clean).pagesBuilt = files.length ∧
    (buildModel py render true files none clean).warnings = [] ∧
    ∀ content y body, pyMatchFrontmatter content = some (y, body) →
      py y = YamlOutcome.err → extractFrontmatter py content = ([], body) := by
  have hpm := processMarkdownFiles_all_ok py files hok
  have hgw := generatePagesWarnings_all_ok render hrender (processMarkdownFiles py files).1
  refine ⟨?_, ?_, ?_, ?_⟩
  · simp [buildModel]
  · simp [buildModel, hpm.1]
  · simp [buildModel, hpm.2, hgw]
  · intro content y body hm herr
    simp [extractFrontmatter, hm, herr]

/-- Witness for C3: a single file whose front matter is malformed still builds
with `success = true`, one page, and no warnings. -/
theorem claim_C3_witness :
    (buildModel yamlStub (fun _ => Except.ok []) true
        [⟨"docs/a.md".toList, Except.ok ("---\ntitle: [bad\n---\n\n# C\n".toList)⟩] none
        false).success = true ∧
    (buildModel yamlStub (fun _ => Except.ok []) true
        [⟨"docs/a.md".toList, Except.ok ("---\ntitle: [bad\n---\n\n# C\n".toList)⟩] none
        false).pagesBuilt =
      [(⟨"docs/a.md".toList, Except.ok ("---\ntitle: [bad\n---\n\n# C\n".toList)⟩ : MdFile)].length ∧
    (buildModel yamlStub (fun _ => Except.ok []) true
        [⟨"docs/a.md".toList, Except.ok ("---\ntitle: [bad\n---\n\n# C\n".toList)⟩] none
        false).warnings = [] ∧
    (∀ content y body, pyMatchFrontmatter content = some (y, body) →
      yamlStub y = YamlOutcome.err → extractFrontmatter yamlStub content = ([], body)) :=
  claim_C3_amended yamlStub (fun _ => Except.ok [])
    [⟨"docs/a.md".toList, Except.ok ("---\ntitle: [bad\n---\n\n# C\n".toList)⟩] false
    (by
      intro f hf
      rcases List.mem_singleton.mp hf with rfl
      exact ⟨_, rfl⟩)
    (fun p => ⟨[], rfl⟩)

/-- Witness for C5 at the heading text `A b_1!` (anchor `a-b_1`). -/
theorem claim_C5_witness :
    (∀ c ∈ ('A' :: ' ' :: 'b' :: '_' :: '1' :: '!' :: []), c.toNat < 128) ∧
    (generateAnchor ('A' :: ' ' :: 'b' :: '_' :: '1' :: '!' :: []) =
        specAnchorAmended ('A' :: ' ' :: 'b' :: '_' :: '1' :: '!' :: []) ∧
      ∀ c ∈ generateAnchor ('A' :: ' ' :: 'b' :: '_' :: '1' :: '!' :: []),
        (c.isAlphanum = true ∨ c = '-' ∨ c = '_') ∧ isPySpace c = false ∧ c.isUpper = false) :=
  ⟨by decide, claim_C5_amended _ (by decide)⟩

end JinPress
